import Mathlib

/-!
# Multi-tier key-value server: LRU cache, storage wrapper, worker pool and request handler

A shallow embedding of `src/server/lru_cache.hpp`, `src/server/storage.hpp`,
`src/server/threadpool.hpp` and the request handler of `src/server/server.cpp`, followed
by the properties proved about them.

Modelling conventions.

* `std::string` is `String`.
* `std::list<string>` is a list of nodes.  A node carries the key it stores and an
  identity `id`; a `list<string>::iterator` is the identity of the node it points to.
  `push_front` allocates a node with a fresh identity (`next`), `erase` unlinks the node
  with the given identity, all other nodes keep theirs (iterator stability of `std::list`).
* `std::unordered_map` is an association list with one entry per key; nothing in the
  source depends on its iteration order.
* An operation whose behaviour is undefined in C++ (`back()` of an empty list,
  dereferencing or erasing through an iterator that designates no node of the list)
  yields `none`.
* The mutex only serialises the operations; every operation is modelled as one atomic
  state transformer.
-/

namespace KV

/-! ## `std::list<string>` with stable iterators -/

/-- Identity of a list node: the value of a `list<string>::iterator`. -/
abbrev Iter := Nat

/-- One node of `std::list<string> order`. -/
structure Node where
  id : Iter
  key : String
deriving DecidableEq, Repr

/-- The node an iterator designates (`*itpos` reads its `key`); `none` when no node of
the list has that identity. -/
def deref : List Node → Iter → Option Node
  | [], _ => none
  | n :: ns, p => if n.id = p then some n else deref ns p

/-- The call `order.erase(itpos)`: unlink the node designated by the iterator. -/
def eraseAt : List Node → Iter → List Node
  | [], _ => []
  | n :: ns, p => if n.id = p then ns else n :: eraseAt ns p

/-- The identity of the node that stores key `k`, if there is one. -/
def idOf : List Node → String → Option Iter
  | [], _ => none
  | n :: ns, k => if n.key = k then some n.id else idOf ns k

/-! ## `std::unordered_map<string, T>` -/

/-- An `unordered_map<string, T>`, and likewise a table with a unique `key` column: at
most one element per key. -/
abbrev Assoc (β : Type) := List (String × β)

/-- The call `map.find(k)`: `none` stands for `map.end()`. -/
def mfind {β : Type} : Assoc β → String → Option β
  | [], _ => none
  | (k', e) :: m, k => if k' = k then some e else mfind m k

/-- The call `map.erase(k)`: remove the element whose key is `k`, if any. -/
def merase {β : Type} : Assoc β → String → Assoc β
  | [], _ => []
  | (k', e) :: m, k => if k' = k then merase m k else (k', e) :: merase m k

/-- The assignment `map[k] = e`: overwrite the element of key `k`, or insert one. -/
def mset {β : Type} : Assoc β → String → β → Assoc β
  | [], k, e => [(k, e)]
  | (k', e') :: m, k, e => if k' = k then (k, e) :: m else (k', e') :: mset m k e

/-- The keys of a map. -/
def mkeys {β : Type} (m : Assoc β) : List String := m.map Prod.fst

/-- The mapped type `pair<string, list<string>::iterator>` of the cache index. -/
structure Entry where
  first : String
  second : Iter
deriving DecidableEq, Repr

/-- The index of the cache. -/
abbrev Index := Assoc Entry

/-! ## `class LRUCache` -/

/-- The data members of `LRUCache` (the mutex apart), and the allocator state `next`:
the identity the next `push_front` gives to its node. -/
structure LRUCache where
  capacity : Nat
  map : Index
  order : List Node
  next : Iter
deriving DecidableEq, Repr

namespace LRUCache

/-- The constructor `LRUCache(size_t capacity)`: both containers empty. -/
def init (capacity : Nat) : LRUCache :=
  { capacity := capacity, map := [], order := [], next := 0 }

/-- The private member `touch(itpos)`:
`key = *itpos; order.erase(itpos); order.push_front(key); map[key].second = order.begin()`.
`map[key]` inserts a value-initialised pair when `key` is not in the index. -/
def touch (c : LRUCache) (itpos : Iter) : Option LRUCache :=
  match deref c.order itpos with
  | none => none
  | some n =>
    let key := n.key
    let order1 := eraseAt c.order itpos
    let order2 := { id := c.next, key := key } :: order1
    let map1 :=
      match mfind c.map key with
      | some e => mset c.map key { e with second := c.next }
      | none => mset c.map key { first := "", second := c.next }
    some { c with map := map1, order := order2, next := c.next + 1 }

/-- The member `put(k, v)`. -/
def put (c : LRUCache) (k v : String) : Option LRUCache :=
  match mfind c.map k with
  | some e =>
    -- it->second.first = v; touch(it->second.second); return;
    touch { c with map := mset c.map k { e with first := v } } e.second
  | none =>
    let evicted : Option LRUCache :=
      if c.map.length ≥ c.capacity then
        match c.order.getLast? with
        | none => none
        | some last => some { c with order := c.order.dropLast, map := merase c.map last.key }
      else some c
    match evicted with
    | none => none
    | some c1 =>
      -- order.push_front(k); map[k] = {v, order.begin()};
      some { c1 with
        order := { id := c1.next, key := k } :: c1.order
        map := mset c1.map k { first := v, second := c1.next }
        next := c1.next + 1 }

/-- The member `get(k, out)`: the returned triple is the `bool` result, the content of
the reference parameter `out` after the call, and the cache after the call. -/
def get (c : LRUCache) (k : String) (out : String) : Option (Bool × String × LRUCache) :=
  match mfind c.map k with
  | none => some (false, out, c)
  | some e =>
    match touch c e.second with
    | none => none
    | some c' => some (true, e.first, c')

/-- The member `remove(k)`. -/
def remove (c : LRUCache) (k : String) : Option LRUCache :=
  match mfind c.map k with
  | none => some c
  | some e =>
    match deref c.order e.second with
    | none => none
    | some _ => some { c with order := eraseAt c.order e.second, map := merase c.map k }

/-- The member `clear()`. -/
def clear (c : LRUCache) : LRUCache :=
  { c with map := [], order := [] }

/-- The value stored for `k`, without touching the cache. -/
def lookup (c : LRUCache) (k : String) : Option String :=
  (mfind c.map k).map Entry.first

/-- The keys of `order`, most recently used first. -/
def keys (c : LRUCache) : List String := c.order.map Node.key

/-- The number of keys held: `map.size()`. -/
def size (c : LRUCache) : Nat := c.map.length

end LRUCache

/-- One call on the public interface of `LRUCache`. -/
inductive Op where
  | put (k v : String)
  | get (k : String)
  | remove (k : String)
  | clear
deriving DecidableEq, Repr

/-- Perform one call; the result of a `get` is dropped. -/
def step (c : LRUCache) : Op → Option LRUCache
  | .put k v => c.put k v
  | .get k => (c.get k "").map fun r => r.2.2
  | .remove k => c.remove k
  | .clear => some c.clear

/-- Perform a sequence of calls, first to last. -/
def run (c : LRUCache) : List Op → Option LRUCache
  | [] => some c
  | op :: ops => (step c op).bind fun c' => run c' ops

/-- The states a cache of capacity at least one goes through. -/
def Reachable (c : LRUCache) : Prop :=
  ∃ capacity ops, 1 ≤ capacity ∧ run (LRUCache.init capacity) ops = some c

/-- Whether the call `put(k, v)` in state `c` evicts the key `x`: the call completes,
`x` is held before it and no longer after it. -/
def evicts (c : LRUCache) (k v x : String) : Bool :=
  match c.put k v with
  | none => false
  | some c' => (c.lookup x).isSome && (c'.lookup x).isNone

/-- The representation invariant of the cache: the capacity is positive and bounds the
index; index and recency list hold no key twice and no node identity twice; the
identities in use are below the allocator state; and the position the index stores for a
key is the identity of the node of `order` that stores this key, for every key. -/
structure WF (c : LRUCache) : Prop where
  cap : 1 ≤ c.capacity
  size : c.map.length ≤ c.capacity
  mapNodup : (mkeys c.map).Nodup
  idsNodup : (c.order.map Node.id).Nodup
  keysNodup : (c.order.map Node.key).Nodup
  fresh : ∀ n ∈ c.order, n.id < c.next
  sync : ∀ k, (mfind c.map k).map Entry.second = idOf c.order k

/-! ## Touch times

The calls of a sequence are numbered from zero.  A call touches key `k` when it is a
`put` of `k`, or a `get` of `k` that hits. -/

/-- Whether the call `op`, issued in state `c`, touches the key `k`. -/
def touches (c : LRUCache) : Op → String → Bool
  | .put k' _, k => decide (k' = k)
  | .get k', k => decide (k' = k) && (mfind c.map k').isSome
  | .remove _, _ => false
  | .clear, _ => false

/-- A cache together with the number of calls performed so far and, for every key, the
number of the last call that touched it. -/
structure Traced where
  cache : LRUCache
  clock : Nat
  last : String → Option Nat

/-- The traced cache before the first call. -/
def Traced.init (capacity : Nat) : Traced :=
  { cache := LRUCache.init capacity, clock := 0, last := fun _ => none }

/-- Perform one call and record which key it touched. -/
def Traced.step (t : Traced) (op : Op) : Option Traced :=
  (KV.step t.cache op).map fun c' =>
    { cache := c'
      clock := t.clock + 1
      last := fun k => if touches t.cache op k then some t.clock else t.last k }

/-- Perform a sequence of calls, first to last, recording the touches. -/
def Traced.run (t : Traced) : List Op → Option Traced
  | [] => some t
  | op :: ops => (t.step op).bind fun t' => t'.run ops

/-- The invariant of a traced cache: the cache is well formed, every key of `order` has
a recorded last touch, earlier than the clock, and `order` lists its keys by strictly
decreasing time of last touch. -/
structure TWF (t : Traced) : Prop where
  wf : WF t.cache
  stamped : ∀ k, k ∈ t.cache.keys → ∃ s, t.last k = some s ∧ s < t.clock
  sorted : t.cache.keys.Pairwise fun a b =>
    ∀ sa sb, t.last a = some sa → t.last b = some sb → sb < sa

/-! ## `class Storage`

The PostgreSQL table `kvstore (key, value)` behind `Storage` is a map from keys to
values: `key` is the conflict target of the `INSERT`, hence unique.  Whether the `try`
block of a member raises an exception (no connection, failed statement) is not decided
by the program; it is the argument `exc`.  A block that raises has not committed, so the
table is as before.  Keys and values are stored and read back as whole strings: the
text encoding between the program and the database (`exec_params`, `c_str()`) is not
modelled. -/

/-- The table `kvstore`. -/
abbrev Table := Assoc String

namespace Storage

/-- The member `Storage::put`: `INSERT ... ON CONFLICT (key) DO UPDATE SET value = ...`,
`true` unless an exception was raised. -/
def put (t : Table) (key value : String) (exc : Bool) : Bool × Table :=
  if exc then (false, t) else (true, mset t key value)

/-- The member `Storage::get`: `SELECT value FROM kvstore WHERE key = $1`.  The result is
the returned `bool` and the content of the reference parameter `value` after the call. -/
def get (t : Table) (key : String) (value : String) (exc : Bool) : Bool × String :=
  if exc then (false, value)
  else
    match mfind t key with
    | none => (false, value)
    | some v => (true, v)

/-- The member `Storage::remove`: `DELETE FROM kvstore WHERE key = $1`, `true` unless an
exception was raised. -/
def remove (t : Table) (key : String) (exc : Bool) : Bool × Table :=
  if exc then (false, t) else (true, merase t key)

end Storage

/-! ## Query strings (`server.cpp`) -/

/-- The value of a digit in base 16. -/
def hexval (c : Char) : Option Nat :=
  if 48 ≤ c.toNat ∧ c.toNat ≤ 57 then some (c.toNat - 48)
  else if 97 ≤ c.toNat ∧ c.toNat ≤ 102 then some (c.toNat - 87)
  else if 65 ≤ c.toNat ∧ c.toNat ≤ 70 then some (c.toNat - 55)
  else none

/-- The C function `isspace` in the "C" locale. -/
def isspace (c : Char) : Bool :=
  c.toNat = 32 || (9 ≤ c.toNat && c.toNat ≤ 13)

/-- The value of the longest run of base-16 digits at the start of the text. -/
def hexrun : List Char → Nat → Nat
  | [], acc => acc
  | c :: cs, acc =>
    match hexval c with
    | some d => hexrun cs (16 * acc + d)
    | none => acc

/-- The call `strtol(hex.c_str(), nullptr, 16)`: the text ends at the first NUL; white
space is skipped, a sign and a `0x` or `0X` before a digit are accepted, then the
digits are read; no digit gives 0. -/
def strtol16 (hex : List Char) : Int :=
  let s := (hex.takeWhile fun c => c.toNat ≠ 0).dropWhile isspace
  let signed : Bool × List Char :=
    match s with
    | [] => (false, [])
    | c :: r => if c = '-' then (true, r) else if c = '+' then (false, r) else (false, c :: r)
  let digits : List Char :=
    match signed.2 with
    | z :: x :: h :: r =>
      if z = '0' ∧ (x = 'x' ∨ x = 'X') ∧ (hexval h).isSome then h :: r else signed.2
    | _ => signed.2
  let n : Int := (hexrun digits 0 : Nat)
  if signed.1 then -n else n

/-- The conversion `(char) n` of a `long`: the low eight bits. -/
def toChar (n : Int) : Char := Char.ofNat (n % 256).toNat

/-- The loop of `url_decode` over the characters of `s` from index `i` on.  The test
`s[i] == '%' && i + 2 < s.size()` holds when `'%'` has two characters after it. -/
def url_decode_chars : List Char → List Char
  | [] => []
  | c :: a :: b :: rest =>
    if c = '%' then toChar (strtol16 [a, b]) :: url_decode_chars rest
    else if c = '+' then ' ' :: url_decode_chars (a :: b :: rest)
    else c :: url_decode_chars (a :: b :: rest)
  | c :: rest =>
    if c = '+' then ' ' :: url_decode_chars rest
    else c :: url_decode_chars rest

/-- The function `url_decode`. -/
def url_decode (s : String) : String := ⟨url_decode_chars s.data⟩

/-- The items the loop `while (getline(ss, item, delim))` reads from a stream holding the
given text: an item ends at a delimiter, which is consumed, or at the end of the text;
`getline` fails, and the loop ends, once no character is left. -/
def getlines (delim : Char) : List Char → List (List Char)
  | [] => []
  | c :: r =>
    if c = delim then [] :: getlines delim r
    else
      match getlines delim r with
      | [] => [[c]]
      | item :: items => (c :: item) :: items

/-- The text after the first occurrence of `d`: `s.substr(s.find(d) + 1)`; `none` when
`find` gives `npos`. -/
def afterFirst (d : Char) : List Char → Option (List Char)
  | [] => none
  | c :: r => if c = d then some r else afterFirst d r

/-- The text before the first occurrence of `d`: `s.substr(0, s.find(d))`. -/
def beforeFirst (d : Char) : List Char → List Char
  | [] => []
  | c :: r => if c = d then [] else c :: beforeFirst d r

/-- The query parameters. -/
abbrev Params := Assoc String

/-- The body of the loop of `parse_query_string` for one item. -/
def addItem (params : Params) (item : List Char) : Params :=
  match afterFirst '=' item with
  | none => params
  | some v => mset params (url_decode ⟨beforeFirst '=' item⟩) (url_decode ⟨v⟩)

/-- The function `parse_query_string`. -/
def parse_query_string (path : String) : Params :=
  match afterFirst '?' path.data with
  | none => []
  | some q => (getlines '&' q).foldl addItem []

/-- The expression `params.count(name) ? params[name] : ""`. -/
def param (params : Params) (name : String) : String :=
  match mfind params name with
  | some v => v
  | none => ""

/-- The request parameter `name` is missing or empty. -/
def missingOrEmpty (params : Params) (name : String) : Prop :=
  mfind params name = none ∨ mfind params name = some ""

/-- The test `path.rfind(p, 0) == 0`: `path` starts with `p`. -/
def startsWith (path p : String) : Bool := p.data.isPrefixOf path.data

/-- The endpoint selected by `handle_connection`. -/
def endpointOf (path : String) : String :=
  if startsWith path "/create" then "/create"
  else if startsWith path "/read" then "/read"
  else if startsWith path "/delete" then "/delete"
  else if startsWith path "/compute" then "/compute"
  else "/"

/-! ## `handle_connection` -/

/-- The arguments of one `send_response` call. -/
structure Response where
  body : String
  status : Nat
deriving DecidableEq, Repr

/-- The global components the handler works on: `cache` and the table behind `storage`. -/
structure Server where
  cache : LRUCache
  table : Table
deriving DecidableEq, Repr

/-- The loop `for (i = 2; i <= n; i++) { t = a + b; a = b; b = t; }` on `long long`,
with the number of iterations left; `none` when an addition overflows. -/
def fibLoop : Nat → Int → Int → Option (Int × Int)
  | 0, a, b => some (a, b)
  | i + 1, a, b =>
    let t := a + b
    if t < -(2 : Int) ^ 63 ∨ (2 : Int) ^ 63 ≤ t then none else fibLoop i b t

/-- The body of `handle_connection` from the parsed `path` on.  `exc` tells whether the
storage call of this request, if it makes one, raises an exception.  The result is the
response sent and the components afterwards. -/
def handle_connection (path : String) (exc : Bool) (s : Server) : Option (Response × Server) :=
  let endpoint := endpointOf path
  if endpoint = "/create" then
    let params := parse_query_string path
    let key := param params "key"
    let value := param params "value"
    if key = "" ∨ value = "" then
      some ({ body := "Missing key or value\n", status := 400 }, s)
    else
      match s.cache.put key value with
      | none => none
      | some c1 =>
        let r := Storage.put s.table key value exc
        if r.1 then some ({ body := "Created key=" ++ key ++ "\n", status := 200 }, ⟨c1, r.2⟩)
        else some ({ body := "DB error\n", status := 500 }, ⟨c1, r.2⟩)
  else if endpoint = "/read" then
    let params := parse_query_string path
    let key := param params "key"
    if key = "" then
      some ({ body := "Missing key\n", status := 400 }, s)
    else
      match s.cache.get key "" with
      | none => none
      | some (true, v, c1) =>
        some ({ body := "Cache hit: " ++ v ++ "\n", status := 200 }, ⟨c1, s.table⟩)
      | some (false, v, c1) =>
        let r := Storage.get s.table key v exc
        if r.1 then
          match c1.put key r.2 with
          | none => none
          | some c2 =>
            some ({ body := "Cache miss -> DB: " ++ r.2 ++ "\n", status := 200 }, ⟨c2, s.table⟩)
        else some ({ body := "Key not found\n", status := 404 }, ⟨c1, s.table⟩)
  else if endpoint = "/delete" then
    let params := parse_query_string path
    let key := param params "key"
    if key = "" then
      some ({ body := "Missing key\n", status := 400 }, s)
    else
      match s.cache.remove key with
      | none => none
      | some c1 =>
        let r := Storage.remove s.table key exc
        if r.1 then some ({ body := "Deleted key=" ++ key ++ "\n", status := 200 }, ⟨c1, r.2⟩)
        else some ({ body := "Key not found\n", status := 404 }, ⟨c1, r.2⟩)
  else if endpoint = "/compute" then
    match fibLoop 39 0 1 with
    | none => none
    | some (_, b) => some ({ body := "fib(40)=" ++ toString b ++ "\n", status := 200 }, s)
  else
    some ({ body := "Multi-tier KV Server\nAPIs:\n/create?key=&value=\n/read?key=\n/delete?key=\n/compute\n",
            status := 200 }, s)

/-- The cache emptied by `clear()`, the table untouched. -/
def Server.clearCache (s : Server) : Server := { s with cache := s.cache.clear }

/-! ## `class ThreadPool`

The pool is a transition system.  Its state is the queue, the stop flag and the place of
every worker thread in its loop; a step is what one thread does while it holds the
mutex, or the execution of one task.  `cv.wait(lock, pred)` returns only when `pred`
holds, with the lock held, so a waiting worker takes a step only in a state where
`stop || !tasks.empty()`; `notify_one` and `notify_all` change no data.  Tasks are told
apart by a number; a task that is executed returns. -/

/-- A task: the `std::function<void()>` put in the queue. -/
abbrev Func := Nat

/-- Where a worker thread is in its loop. -/
inductive Worker where
  /-- In the block that takes the lock and waits on the condition variable. -/
  | waiting
  /-- At the call `task()`, outside the lock. -/
  | running (task : Func)
  /-- After `return`: the thread function has ended. -/
  | exited
deriving DecidableEq, Repr

/-- The data members of `ThreadPool`, and `completed`: the tasks whose execution has
ended, in the order in which they ended. -/
structure ThreadPool where
  workers : List Worker
  tasks : List Func
  stop : Bool
  completed : List Func
deriving DecidableEq, Repr

namespace ThreadPool

/-- The constructor `ThreadPool(num_threads)`: every worker starts its loop. -/
def init (num_threads : Nat) : ThreadPool :=
  { workers := List.replicate num_threads Worker.waiting, tasks := [], stop := false,
    completed := [] }

/-- The member `enqueue(func)`: `tasks.emplace(func)` under the lock, then `notify_one`. -/
def enqueue (p : ThreadPool) (func : Func) : ThreadPool :=
  { p with tasks := p.tasks ++ [func] }

/-- The first block of the destructor: `stop = true` under the lock, then `notify_all`. -/
def shutdown (p : ThreadPool) : ThreadPool :=
  { p with stop := true }

/-- The loop `for (auto& t : workers) t.join()` of the destructor has ended: every
worker thread has ended. -/
def joined (p : ThreadPool) : Bool :=
  p.workers.all fun w => decide (w = Worker.exited)

/-- One step of worker `i`.  A worker at `task()` ends the task and goes back to the head
of its loop.  A waiting worker whose wait predicate holds leaves the loop when
`stop && tasks.empty()`, and otherwise takes the front of the queue.  `none`: there is
no such thread, it has ended, or it is blocked in `cv.wait`. -/
def work (p : ThreadPool) (i : Nat) : Option ThreadPool :=
  match p.workers[i]? with
  | none => none
  | some Worker.exited => none
  | some (Worker.running task) =>
    some { p with workers := p.workers.set i Worker.waiting, completed := p.completed ++ [task] }
  | some Worker.waiting =>
    if p.stop || !p.tasks.isEmpty then
      if p.stop && p.tasks.isEmpty then
        some { p with workers := p.workers.set i Worker.exited }
      else
        match p.tasks with
        | [] => none
        | task :: rest =>
          some { p with workers := p.workers.set i (Worker.running task), tasks := rest }
    else none

/-- The tasks being executed. -/
def runningTasks (p : ThreadPool) : List Func :=
  p.workers.filterMap fun w =>
    match w with
    | Worker.running task => some task
    | _ => none

/-- The tasks the pool has been given and has not lost: executed, being executed, or
queued. -/
def pending (p : ThreadPool) : List Func :=
  p.completed ++ p.runningTasks ++ p.tasks

/-- A bound on the number of worker steps still possible when nothing is enqueued:
three per queued task, two per worker at `task()`, one per waiting worker. -/
def budget (p : ThreadPool) : Nat :=
  3 * p.tasks.length +
    (p.workers.map fun w =>
      match w with
      | Worker.waiting => 1
      | Worker.running _ => 2
      | Worker.exited => 0).sum

end ThreadPool

/-- What can happen to a pool: a thread calls `enqueue`, the owner starts the destructor,
or worker `i` takes a step. -/
inductive Event where
  | enqueue (func : Func)
  | shutdown
  | work (i : Nat)
deriving DecidableEq, Repr

/-- The effect of one event; `none` when it is a step of a worker that cannot take one. -/
def exec (p : ThreadPool) : Event → Option ThreadPool
  | .enqueue func => some (p.enqueue func)
  | .shutdown => some p.shutdown
  | .work i => p.work i

/-- The effect of a sequence of events, first to last. -/
def execAll (p : ThreadPool) : List Event → Option ThreadPool
  | [] => some p
  | e :: es => (exec p e).bind fun p' => execAll p' es

/-- The tasks enqueued by a sequence of events, in order. -/
def enqueuedBy (es : List Event) : List Func :=
  es.filterMap fun e =>
    match e with
    | .enqueue func => some func
    | _ => none

/-- The event is a step of a worker. -/
def Event.isWork : Event → Bool
  | .work _ => true
  | _ => false

/-! ## Query items and url-encoded text, as described -/

/-- The binding of the key `k` in a list of query items, in the words of the interface
description: the url-decoded value of the last item that has an `=` and whose url-decoded
name, the text before its first `=`, is `k`; none when there is no such item. -/
def lastBinding (items : List (List Char)) (k : String) : Option String :=
  (items.reverse.find? fun item =>
      (afterFirst '=' item).isSome && decide (url_decode ⟨beforeFirst '=' item⟩ = k)).bind
    fun item => (afterFirst '=' item).map fun v => url_decode ⟨v⟩

/-- The hexadecimal digit of value `d` (below 16), in upper or in lower case. -/
def hexDigit (upper : Bool) (d : Nat) : Char :=
  if d < 10 then Char.ofNat (48 + d)
  else if upper then Char.ofNat (55 + d)
  else Char.ofNat (87 + d)

/-- A piece of url-encoded text: the escape of a byte, written with `%` and its two
hexadecimal digits, each in upper or lower case; a `+`; or a character that is neither
`%` nor `+`, standing for itself. -/
inductive Token where
  | escape (byte : Char) (upper1 upper2 : Bool)
  | plus
  | plain (c : Char)
deriving DecidableEq, Repr

/-- The characters a piece is written with. -/
def Token.text : Token → List Char
  | .escape byte upper1 upper2 =>
    ['%', hexDigit upper1 (byte.toNat / 16), hexDigit upper2 (byte.toNat % 16)]
  | .plus => ['+']
  | .plain c => [c]

/-- The character a piece stands for. -/
def Token.decoded : Token → Char
  | .escape byte _ _ => byte
  | .plus => ' '
  | .plain c => c

/-- An escape is the escape of a byte; a plain character is neither `%` nor `+`. -/
def Token.wellFormed : Token → Bool
  | .escape byte _ _ => decide (byte.toNat < 256)
  | .plus => true
  | .plain c => decide (c ≠ '%') && decide (c ≠ '+')

/-- The text a sequence of pieces is written with. -/
def encodedText : List Token → List Char
  | [] => []
  | t :: ts => t.text ++ encodedText ts

/-! ## Lemmas on maps -/

theorem mfind_mset {β : Type} (m : Assoc β) (k : String) (e : β) (k' : String) :
    mfind (mset m k e) k' = if k = k' then some e else mfind m k' := by
  induction m with
  | nil => simp [mset, mfind]
  | cons x m ih =>
    obtain ⟨kx, ex⟩ := x
    by_cases h : kx = k
    · subst h
      by_cases h' : kx = k' <;> simp [mset, mfind, h']
    · by_cases h' : kx = k'
      · subst h'
        simp [mset, mfind, h, Ne.symm h]
      · simp [mset, mfind, h, h', ih]

theorem mfind_merase {β : Type} (m : Assoc β) (k k' : String) :
    mfind (merase m k) k' = if k = k' then none else mfind m k' := by
  induction m with
  | nil => simp [merase, mfind]
  | cons x m ih =>
    obtain ⟨kx, ex⟩ := x
    by_cases h : kx = k
    · subst h
      by_cases h' : kx = k'
      · subst h'
        simpa [merase, mfind] using ih
      · simp [merase, mfind, h', ih]
    · by_cases h' : kx = k'
      · subst h'
        simp [merase, mfind, h, Ne.symm h]
      · simp [merase, mfind, h, h', ih]

theorem mem_mkeys_iff {β : Type} (m : Assoc β) (k : String) :
    k ∈ mkeys m ↔ ∃ e, mfind m k = some e := by
  induction m with
  | nil => simp [mkeys, mfind]
  | cons x m ih =>
    obtain ⟨kx, ex⟩ := x
    by_cases h : kx = k
    · simp [mkeys, mfind, h]
    · have ih' : k ∈ List.map Prod.fst m ↔ ∃ e, mfind m k = some e := ih
      simp [mkeys, mfind, h, Ne.symm h, ih']

theorem not_mem_mkeys_iff {β : Type} (m : Assoc β) (k : String) :
    k ∉ mkeys m ↔ mfind m k = none := by
  rw [mem_mkeys_iff]
  cases mfind m k <;> simp

theorem mkeys_mset_of_none {β : Type} (m : Assoc β) (k : String) (e : β)
    (h : mfind m k = none) : mkeys (mset m k e) = mkeys m ++ [k] := by
  induction m with
  | nil => simp [mset, mkeys]
  | cons x m ih =>
    obtain ⟨kx, ex⟩ := x
    by_cases hk : kx = k
    · simp [mfind, hk] at h
    · have h' : mfind m k = none := by simpa [mfind, hk] using h
      have := ih h'
      simp only [mkeys] at this
      simp [mset, mkeys, hk, this]

theorem mkeys_mset_of_some {β : Type} (m : Assoc β) (k : String) (e e' : β)
    (h : mfind m k = some e') : mkeys (mset m k e) = mkeys m := by
  induction m with
  | nil => simp [mfind] at h
  | cons x m ih =>
    obtain ⟨kx, ex⟩ := x
    by_cases hk : kx = k
    · simp [mset, mkeys, hk]
    · have h' : mfind m k = some e' := by simpa [mfind, hk] using h
      have := ih h'
      simp only [mkeys] at this
      simp [mset, mkeys, hk, this]

theorem nodup_mkeys_mset {β : Type} (m : Assoc β) (k : String) (e : β)
    (h : (mkeys m).Nodup) : (mkeys (mset m k e)).Nodup := by
  cases hf : mfind m k with
  | none =>
    rw [mkeys_mset_of_none m k e hf]
    have hk : k ∉ mkeys m := (not_mem_mkeys_iff m k).2 hf
    exact List.Nodup.append h (List.nodup_singleton k) (by simpa using hk)
  | some e' =>
    rw [mkeys_mset_of_some m k e e' hf]
    exact h

theorem length_mset {β : Type} (m : Assoc β) (k : String) (e : β) :
    (mset m k e).length = if (mfind m k).isSome then m.length else m.length + 1 := by
  induction m with
  | nil => simp [mset, mfind]
  | cons x m ih =>
    obtain ⟨kx, ex⟩ := x
    by_cases hk : kx = k
    · simp [mset, mfind, hk]
    · simp only [mset, mfind, hk, if_false, List.length_cons, ih]
      split <;> rfl

theorem mkeys_merase_sublist {β : Type} (m : Assoc β) (k : String) :
    (mkeys (merase m k)).Sublist (mkeys m) := by
  induction m with
  | nil => simp [merase, mkeys]
  | cons x m ih =>
    obtain ⟨kx, ex⟩ := x
    by_cases hk : kx = k
    · simpa [merase, mkeys, hk] using List.Sublist.cons k ih
    · simpa [merase, mkeys, hk] using List.Sublist.cons₂ kx ih

theorem merase_of_none {β : Type} (m : Assoc β) (k : String) (h : mfind m k = none) :
    merase m k = m := by
  induction m with
  | nil => simp [merase]
  | cons x m ih =>
    obtain ⟨kx, ex⟩ := x
    by_cases hk : kx = k
    · simp [mfind, hk] at h
    · have h' : mfind m k = none := by simpa [mfind, hk] using h
      simp [merase, hk, ih h']

theorem length_merase {β : Type} (m : Assoc β) (k : String) (e : β)
    (hn : (mkeys m).Nodup) (h : mfind m k = some e) :
    (merase m k).length + 1 = m.length := by
  induction m with
  | nil => simp [mfind] at h
  | cons x m ih =>
    obtain ⟨kx, ex⟩ := x
    have hn' : kx ∉ mkeys m ∧ (mkeys m).Nodup := by simpa [mkeys] using hn
    by_cases hk : kx = k
    · subst hk
      have : mfind m kx = none := (not_mem_mkeys_iff m kx).1 hn'.1
      simp [merase, merase_of_none m kx this]
    · have h' : mfind m k = some e := by simpa [mfind, hk] using h
      simp [merase, hk, ih hn'.2 h']

/-! ## Lemmas on the recency list -/

theorem idOf_mem {ns : List Node} {k : String} {p : Iter} (h : idOf ns k = some p) :
    { id := p, key := k } ∈ ns := by
  induction ns with
  | nil => simp [idOf] at h
  | cons n ns ih =>
    by_cases hk : n.key = k
    · simp only [idOf, hk, if_true, Option.some.injEq] at h
      subst h; subst hk
      exact List.mem_cons_self _ _
    · simp only [idOf, hk, if_false] at h
      exact List.mem_cons_of_mem _ (ih h)

theorem idOf_eq_none_iff (ns : List Node) (k : String) :
    idOf ns k = none ↔ k ∉ ns.map Node.key := by
  induction ns with
  | nil => simp [idOf]
  | cons n ns ih =>
    by_cases hk : n.key = k
    · simp [idOf, hk]
    · simp [idOf, hk, Ne.symm hk, ih]

theorem mem_keys_iff_idOf (ns : List Node) (k : String) :
    k ∈ ns.map Node.key ↔ ∃ p, idOf ns k = some p := by
  have := idOf_eq_none_iff ns k
  cases h : idOf ns k with
  | none => simpa [h] using this
  | some p =>
    rw [h] at this
    simp only [reduceCtorEq, false_iff, not_not] at this
    simp [this]

theorem deref_of_idOf {ns : List Node} {k : String} {p : Iter}
    (hn : (ns.map Node.id).Nodup) (h : idOf ns k = some p) :
    deref ns p = some { id := p, key := k } := by
  induction ns with
  | nil => simp [idOf] at h
  | cons n ns ih =>
    have hn' : n.id ∉ ns.map Node.id ∧ (ns.map Node.id).Nodup := by simpa using hn
    by_cases hk : n.key = k
    · simp only [idOf, hk, if_true, Option.some.injEq] at h
      subst h; subst hk
      simp [deref]
    · simp only [idOf, hk, if_false] at h
      have hp : n.id ≠ p := by
        intro hp
        apply hn'.1
        rw [hp]
        exact List.mem_map_of_mem Node.id (idOf_mem h)
      simp [deref, hp, ih hn'.2 h]

theorem keys_eraseAt {ns : List Node} {k : String} {p : Iter}
    (hn : (ns.map Node.id).Nodup) (h : idOf ns k = some p) :
    (eraseAt ns p).map Node.key = (ns.map Node.key).erase k := by
  induction ns with
  | nil => simp [idOf] at h
  | cons n ns ih =>
    have hn' : n.id ∉ ns.map Node.id ∧ (ns.map Node.id).Nodup := by simpa using hn
    by_cases hk : n.key = k
    · simp only [idOf, hk, if_true, Option.some.injEq] at h
      simp [eraseAt, h, hk]
    · simp only [idOf, hk, if_false] at h
      have hp : n.id ≠ p := by
        intro hp
        apply hn'.1
        rw [hp]
        exact List.mem_map_of_mem Node.id (idOf_mem h)
      simp [eraseAt, hp, hk, ih hn'.2 h]

theorem eraseAt_sublist (ns : List Node) (p : Iter) : (eraseAt ns p).Sublist ns := by
  induction ns with
  | nil => simp [eraseAt]
  | cons n ns ih =>
    by_cases hp : n.id = p
    · simp [eraseAt, hp]
    · simpa [eraseAt, hp] using List.Sublist.cons₂ n ih

theorem idOf_eraseAt {ns : List Node} {k : String} {p : Iter}
    (hn : (ns.map Node.id).Nodup) (hk : (ns.map Node.key).Nodup) (h : idOf ns k = some p)
    (k' : String) : idOf (eraseAt ns p) k' = if k = k' then none else idOf ns k' := by
  induction ns with
  | nil => simp [idOf] at h
  | cons n ns ih =>
    have hn' : n.id ∉ ns.map Node.id ∧ (ns.map Node.id).Nodup := by simpa using hn
    have hk' : n.key ∉ ns.map Node.key ∧ (ns.map Node.key).Nodup := by simpa using hk
    by_cases hnk : n.key = k
    · simp only [idOf, hnk, if_true, Option.some.injEq] at h
      simp only [eraseAt, h, if_true, idOf, hnk]
      by_cases hkk : k = k'
      · subst hkk
        simp only [if_true]
        rw [idOf_eq_none_iff]
        rw [← hnk]
        exact hk'.1
      · simp [hkk]
    · simp only [idOf, hnk, if_false] at h
      have hp : n.id ≠ p := by
        intro hp
        apply hn'.1
        rw [hp]
        exact List.mem_map_of_mem Node.id (idOf_mem h)
      simp only [eraseAt, hp, if_false, idOf, ih hn'.2 hk'.2 h]
      by_cases hkk : k = k'
      · subst hkk
        simp [hnk]
      · simp [hkk]

theorem idOf_append (xs ys : List Node) (k : String) :
    idOf (xs ++ ys) k = (idOf xs k).orElse fun _ => idOf ys k := by
  induction xs with
  | nil => simp [idOf]
  | cons n xs ih =>
    by_cases hk : n.key = k
    · simp [idOf, hk]
    · simp [idOf, hk, ih]

/-! ## The invariant is established and preserved -/

theorem WF_init (capacity : Nat) (h : 1 ≤ capacity) : WF (LRUCache.init capacity) where
  cap := h
  size := by simp [LRUCache.init]
  mapNodup := by simp [LRUCache.init, mkeys]
  idsNodup := by simp [LRUCache.init]
  keysNodup := by simp [LRUCache.init]
  fresh := by simp [LRUCache.init]
  sync := by simp [LRUCache.init, mfind, idOf]

theorem WF.idOf_of_mfind {c : LRUCache} (h : WF c) {k : String} {e : Entry}
    (hf : mfind c.map k = some e) : idOf c.order k = some e.second := by
  rw [← h.sync k, hf]
  rfl

theorem WF.mfind_of_idOf {c : LRUCache} (h : WF c) {k : String} {p : Iter}
    (hf : idOf c.order k = some p) : ∃ e, mfind c.map k = some e ∧ e.second = p := by
  have := h.sync k
  rw [hf] at this
  cases hm : mfind c.map k with
  | none => simp [hm] at this
  | some e =>
    refine ⟨e, rfl, ?_⟩
    simpa [hm] using this

theorem WF.mem_keys_iff {c : LRUCache} (h : WF c) (k : String) :
    k ∈ c.keys ↔ ∃ v, c.lookup k = some v := by
  unfold LRUCache.keys LRUCache.lookup
  rw [mem_keys_iff_idOf]
  constructor
  · rintro ⟨p, hp⟩
    obtain ⟨e, he, _⟩ := h.mfind_of_idOf hp
    exact ⟨e.first, by simp [he]⟩
  · rintro ⟨v, hv⟩
    cases hm : mfind c.map k with
    | none => simp [hm] at hv
    | some e => exact ⟨e.second, h.idOf_of_mfind hm⟩

theorem WF_setValue {c : LRUCache} (h : WF c) {k : String} {e : Entry} (v : String)
    (hf : mfind c.map k = some e) :
    WF { c with map := mset c.map k { e with first := v } } where
  cap := h.cap
  size := by
    simp only [length_mset, hf, Option.isSome_some, if_true]
    exact h.size
  mapNodup := nodup_mkeys_mset _ _ _ h.mapNodup
  idsNodup := h.idsNodup
  keysNodup := h.keysNodup
  fresh := h.fresh
  sync := by
    intro k'
    simp only [mfind_mset]
    by_cases hk : k = k'
    · subst hk
      simp only [if_true, Option.map_some']
      exact (h.idOf_of_mfind hf).symm
    · simp only [hk, if_false]
      exact h.sync k'

theorem WF_promote {c : LRUCache} (h : WF c) {k : String} {e : Entry}
    (hf : mfind c.map k = some e) :
    WF { c with
      map := mset c.map k { e with second := c.next }
      order := { id := c.next, key := k } :: eraseAt c.order e.second
      next := c.next + 1 } where
  cap := h.cap
  size := by
    simp only [length_mset, hf, Option.isSome_some, if_true]
    exact h.size
  mapNodup := nodup_mkeys_mset _ _ _ h.mapNodup
  idsNodup := by
    have hsub := eraseAt_sublist c.order e.second
    simp only [List.map_cons, List.nodup_cons]
    constructor
    · intro hmem
      obtain ⟨n, hn, hid⟩ := List.mem_map.1 hmem
      have := h.fresh n (hsub.subset hn)
      rw [hid] at this
      exact Nat.lt_irrefl _ this
    · exact (h.idsNodup).sublist (hsub.map Node.id)
  keysNodup := by
    simp only [List.map_cons, List.nodup_cons]
    rw [keys_eraseAt h.idsNodup (h.idOf_of_mfind hf)]
    exact ⟨fun hmem => (h.keysNodup.mem_erase_iff.1 hmem).1 rfl, h.keysNodup.erase k⟩
  fresh := by
    intro n hn
    simp only [List.mem_cons] at hn
    rcases hn with rfl | hn
    · simp
    · exact Nat.lt_succ_of_lt (h.fresh n ((eraseAt_sublist c.order e.second).subset hn))
  sync := by
    intro k'
    simp only [mfind_mset, idOf]
    by_cases hk : k = k'
    · simp [hk]
    · simp only [hk, if_false]
      rw [idOf_eraseAt h.idsNodup h.keysNodup (h.idOf_of_mfind hf)]
      simp only [hk, if_false]
      exact h.sync k'

theorem touch_eq {c : LRUCache} (h : WF c) {k : String} {e : Entry}
    (hf : mfind c.map k = some e) :
    c.touch e.second = some { c with
      map := mset c.map k { e with second := c.next }
      order := { id := c.next, key := k } :: eraseAt c.order e.second
      next := c.next + 1 } := by
  have hd := deref_of_idOf h.idsNodup (h.idOf_of_mfind hf)
  simp [LRUCache.touch, hd, hf]

theorem getLast_split {ns : List Node} {last : Node} (h : ns.getLast? = some last) :
    ns = ns.dropLast ++ [last] := by
  have := List.dropLast_append_getLast? last (by simpa using h)
  exact this.symm

theorem WF_evict {c : LRUCache} (h : WF c) {last : Node} (hl : c.order.getLast? = some last) :
    WF { c with order := c.order.dropLast, map := merase c.map last.key } ∧
      (merase c.map last.key).length + 1 = c.map.length := by
  have hsplit := getLast_split hl
  have hmem : last ∈ c.order := by
    rw [hsplit]
    simp
  have hkeys : (c.order.dropLast.map Node.key ++ [last.key]).Nodup := by
    have := h.keysNodup
    rw [hsplit] at this
    simpa using this
  have hnot : last.key ∉ c.order.dropLast.map Node.key := by
    have := List.disjoint_of_nodup_append hkeys
    intro hm
    exact this hm (List.mem_singleton_self _)
  obtain ⟨p, hp⟩ := (mem_keys_iff_idOf c.order last.key).1 (List.mem_map_of_mem Node.key hmem)
  obtain ⟨e, he, _⟩ := h.mfind_of_idOf hp
  have hlen := length_merase c.map last.key e h.mapNodup he
  refine ⟨?_, hlen⟩
  exact
    { cap := h.cap
      size := by
        have := h.size
        simp only
        omega
      mapNodup := h.mapNodup.sublist (mkeys_merase_sublist _ _)
      idsNodup := h.idsNodup.sublist ((List.dropLast_sublist _).map Node.id)
      keysNodup := h.keysNodup.sublist ((List.dropLast_sublist _).map Node.key)
      fresh := fun n hn => h.fresh n ((List.dropLast_sublist _).subset hn)
      sync := by
        intro k'
        simp only [mfind_merase]
        by_cases hk : last.key = k'
        · simp only [hk, if_true, Option.map_none']
          rw [eq_comm, idOf_eq_none_iff, ← hk]
          exact hnot
        · simp only [hk, if_false]
          rw [h.sync k']
          conv_lhs => rw [hsplit]
          rw [idOf_append]
          cases idOf c.order.dropLast k' <;> simp [idOf, hk] }

theorem WF_insert {c : LRUCache} (h : WF c) {k : String} (v : String)
    (hf : mfind c.map k = none) (hlt : c.map.length < c.capacity) :
    WF { c with
      order := { id := c.next, key := k } :: c.order
      map := mset c.map k { first := v, second := c.next }
      next := c.next + 1 } where
  cap := h.cap
  size := by
    simp only [length_mset, hf, Option.isSome_none]
    simpa using hlt
  mapNodup := nodup_mkeys_mset _ _ _ h.mapNodup
  idsNodup := by
    simp only [List.map_cons, List.nodup_cons]
    refine ⟨?_, h.idsNodup⟩
    intro hmem
    obtain ⟨n, hn, hid⟩ := List.mem_map.1 hmem
    have := h.fresh n hn
    rw [hid] at this
    exact Nat.lt_irrefl _ this
  keysNodup := by
    simp only [List.map_cons, List.nodup_cons]
    refine ⟨?_, h.keysNodup⟩
    rw [← idOf_eq_none_iff, ← h.sync k, hf]
    rfl
  fresh := by
    intro n hn
    simp only [List.mem_cons] at hn
    rcases hn with rfl | hn
    · simp
    · exact Nat.lt_succ_of_lt (h.fresh n hn)
  sync := by
    intro k'
    simp only [mfind_mset, idOf]
    by_cases hk : k = k'
    · simp [hk]
    · simp only [hk, if_false]
      exact h.sync k'

/-! ## What each member does on a well-formed cache -/

theorem touch_spec {c : LRUCache} (h : WF c) {k : String} {e : Entry}
    (hf : mfind c.map k = some e) :
    ∃ c', c.touch e.second = some c' ∧ WF c' ∧ c'.capacity = c.capacity ∧ c'.size = c.size ∧
      c'.keys = k :: c.keys.erase k ∧ ∀ k', c'.lookup k' = c.lookup k' := by
  refine ⟨_, touch_eq h hf, WF_promote h hf, rfl, ?_, ?_, ?_⟩
  · simp [LRUCache.size, length_mset, hf]
  · simp only [LRUCache.keys, List.map_cons]
    rw [keys_eraseAt h.idsNodup (h.idOf_of_mfind hf)]
  · intro k'
    simp only [LRUCache.lookup, mfind_mset]
    by_cases hk : k = k'
    · subst hk
      simp [hf]
    · simp [hk]

theorem put_hit {c : LRUCache} (h : WF c) {k : String} {e : Entry} (v : String)
    (hf : mfind c.map k = some e) :
    ∃ c', c.put k v = some c' ∧ WF c' ∧ c'.capacity = c.capacity ∧ c'.size = c.size ∧
      c'.keys = k :: c.keys.erase k ∧
      ∀ k', c'.lookup k' = if k = k' then some v else c.lookup k' := by
  have h1 := WF_setValue h v hf
  have hf1 : mfind (mset c.map k { e with first := v }) k = some { e with first := v } := by
    simp [mfind_mset]
  obtain ⟨c', hc', hwf, hcap, hsize, hkeys, hlook⟩ :=
    touch_spec (c := { c with map := mset c.map k { e with first := v } }) h1 hf1
  refine ⟨c', ?_, hwf, hcap, ?_, hkeys, ?_⟩
  · simpa [LRUCache.put, hf] using hc'
  · rw [hsize]
    simp [LRUCache.size, length_mset, hf]
  · intro k'
    rw [hlook k']
    simp only [LRUCache.lookup, mfind_mset]
    by_cases hk : k = k' <;> simp [hk]

theorem put_miss_room {c : LRUCache} (h : WF c) {k : String} (v : String)
    (hf : mfind c.map k = none) (hlt : c.map.length < c.capacity) :
    ∃ c', c.put k v = some c' ∧ WF c' ∧ c'.capacity = c.capacity ∧ c'.size = c.size + 1 ∧
      c'.keys = k :: c.keys ∧
      ∀ k', c'.lookup k' = if k = k' then some v else c.lookup k' := by
  refine ⟨_, ?_, WF_insert h v hf hlt, rfl, ?_, rfl, ?_⟩
  · simp [LRUCache.put, hf, Nat.not_le.2 hlt]
  · simp [LRUCache.size, length_mset, hf]
  · intro k'
    simp only [LRUCache.lookup, mfind_mset]
    by_cases hk : k = k' <;> simp [hk]

theorem put_miss_full {c : LRUCache} (h : WF c) {k : String} (v : String)
    (hf : mfind c.map k = none) (hge : c.capacity ≤ c.map.length) :
    ∃ c' victim, c.put k v = some c' ∧ WF c' ∧ c'.capacity = c.capacity ∧ c'.size = c.size ∧
      c.keys.getLast? = some victim ∧ victim ≠ k ∧
      c'.keys = k :: c.keys.dropLast ∧
      ∀ k', c'.lookup k' =
        if k = k' then some v else if victim = k' then none else c.lookup k' := by
  have hne : c.map ≠ [] := by
    intro h0
    have := h.cap
    rw [h0] at hge
    simp at hge
    omega
  obtain ⟨⟨k0, e0⟩, m', hm⟩ := List.exists_cons_of_ne_nil hne
  have hk0 : mfind c.map k0 = some e0 := by simp [hm, mfind]
  have hmem := idOf_mem (h.idOf_of_mfind hk0)
  cases hl : c.order.getLast? with
  | none =>
    rw [List.getLast?_eq_none_iff] at hl
    rw [hl] at hmem
    simp at hmem
  | some last =>
    obtain ⟨hwf, hlen⟩ := WF_evict h hl
    have hlast : last.key ≠ k := by
      intro hk
      have hin : last ∈ c.order := by
        rw [getLast_split hl]
        simp
      obtain ⟨p, hp⟩ := (mem_keys_iff_idOf c.order last.key).1 (List.mem_map_of_mem Node.key hin)
      obtain ⟨e, he, _⟩ := h.mfind_of_idOf hp
      rw [hk, hf] at he
      simp at he
    have hf1 : mfind (merase c.map last.key) k = none := by
      simp [mfind_merase, hf]
    have hlt : (merase c.map last.key).length < c.capacity := by
      have := h.size
      omega
    refine ⟨_, last.key, ?_, WF_insert hwf v hf1 hlt, rfl, ?_, ?_, hlast, ?_, ?_⟩
    · simp [LRUCache.put, hf, hge, hl]
    · simp only [LRUCache.size, length_mset, hf1, Option.isSome_none]
      simpa using hlen
    · simp [LRUCache.keys, List.getLast?_map, hl]
    · simp [LRUCache.keys, List.map_dropLast]
    · intro k'
      simp only [LRUCache.lookup, mfind_mset, mfind_merase]
      by_cases hk : k = k'
      · simp [hk]
      · by_cases hk' : last.key = k' <;> simp [hk, hk']

theorem get_miss {c : LRUCache} {k : String} (out : String) (hf : mfind c.map k = none) :
    c.get k out = some (false, out, c) := by
  simp [LRUCache.get, hf]

theorem get_hit {c : LRUCache} (h : WF c) {k : String} {e : Entry} (out : String)
    (hf : mfind c.map k = some e) :
    ∃ c', c.get k out = some (true, e.first, c') ∧ WF c' ∧ c'.capacity = c.capacity ∧
      c'.size = c.size ∧ c'.keys = k :: c.keys.erase k ∧ ∀ k', c'.lookup k' = c.lookup k' := by
  obtain ⟨c', hc', hwf, hcap, hsize, hkeys, hlook⟩ := touch_spec h hf
  exact ⟨c', by simp [LRUCache.get, hf, hc'], hwf, hcap, hsize, hkeys, hlook⟩

theorem remove_miss {c : LRUCache} {k : String} (hf : mfind c.map k = none) :
    c.remove k = some c := by
  simp [LRUCache.remove, hf]

theorem remove_hit {c : LRUCache} (h : WF c) {k : String} {e : Entry}
    (hf : mfind c.map k = some e) :
    ∃ c', c.remove k = some c' ∧ WF c' ∧ c'.capacity = c.capacity ∧ c'.size + 1 = c.size ∧
      c'.keys = c.keys.erase k ∧
      ∀ k', c'.lookup k' = if k = k' then none else c.lookup k' := by
  have hid := h.idOf_of_mfind hf
  have hd := deref_of_idOf h.idsNodup hid
  have hsub := eraseAt_sublist c.order e.second
  refine ⟨{ c with order := eraseAt c.order e.second, map := merase c.map k }, ?_, ?_, rfl, ?_, ?_, ?_⟩
  · simp [LRUCache.remove, hf, hd]
  · exact
      { cap := h.cap
        size := by
          have := length_merase c.map k e h.mapNodup hf
          have := h.size
          simp only
          omega
        mapNodup := h.mapNodup.sublist (mkeys_merase_sublist _ _)
        idsNodup := h.idsNodup.sublist (hsub.map Node.id)
        keysNodup := h.keysNodup.sublist (hsub.map Node.key)
        fresh := fun n hn => h.fresh n (hsub.subset hn)
        sync := by
          intro k'
          simp only [mfind_merase]
          rw [idOf_eraseAt h.idsNodup h.keysNodup hid]
          by_cases hk : k = k'
          · simp [hk]
          · simp only [hk, if_false]
            exact h.sync k' }
  · exact length_merase c.map k e h.mapNodup hf
  · simp only [LRUCache.keys]
    exact keys_eraseAt h.idsNodup hid
  · intro k'
    simp only [LRUCache.lookup, mfind_merase]
    by_cases hk : k = k' <;> simp [hk]

theorem WF_clear {c : LRUCache} (h : WF c) : WF c.clear where
  cap := h.cap
  size := by simp [LRUCache.clear]
  mapNodup := by simp [LRUCache.clear, mkeys]
  idsNodup := by simp [LRUCache.clear]
  keysNodup := by simp [LRUCache.clear]
  fresh := by simp [LRUCache.clear]
  sync := by simp [LRUCache.clear, mfind, idOf]

theorem step_WF {c : LRUCache} (h : WF c) (op : Op) :
    ∃ c', step c op = some c' ∧ WF c' ∧ c'.capacity = c.capacity := by
  cases op with
  | put k v =>
    cases hf : mfind c.map k with
    | some e =>
      obtain ⟨c', hc', hwf, hcap, _⟩ := put_hit h v hf
      exact ⟨c', hc', hwf, hcap⟩
    | none =>
      by_cases hlt : c.map.length < c.capacity
      · obtain ⟨c', hc', hwf, hcap, _⟩ := put_miss_room h v hf hlt
        exact ⟨c', hc', hwf, hcap⟩
      · obtain ⟨c', _, hc', hwf, hcap, _⟩ := put_miss_full h v hf (Nat.not_lt.1 hlt)
        exact ⟨c', hc', hwf, hcap⟩
  | get k =>
    cases hf : mfind c.map k with
    | some e =>
      obtain ⟨c', hc', hwf, hcap, _⟩ := get_hit h "" hf
      exact ⟨c', by simp [step, hc'], hwf, hcap⟩
    | none => exact ⟨c, by simp [step, get_miss "" hf], h, rfl⟩
  | remove k =>
    cases hf : mfind c.map k with
    | some e =>
      obtain ⟨c', hc', hwf, hcap, _⟩ := remove_hit h hf
      exact ⟨c', hc', hwf, hcap⟩
    | none => exact ⟨c, remove_miss hf, h, rfl⟩
  | clear => exact ⟨c.clear, rfl, WF_clear h, rfl⟩

theorem run_WF {c : LRUCache} (h : WF c) (ops : List Op) :
    ∃ c', run c ops = some c' ∧ WF c' ∧ c'.capacity = c.capacity := by
  induction ops generalizing c with
  | nil => exact ⟨c, rfl, h, rfl⟩
  | cons op ops ih =>
    obtain ⟨c1, h1, hwf1, hcap1⟩ := step_WF h op
    obtain ⟨c2, h2, hwf2, hcap2⟩ := ih hwf1
    exact ⟨c2, by simp [run, h1, h2], hwf2, hcap2.trans hcap1⟩

theorem Reachable.wf {c : LRUCache} (h : Reachable c) : WF c := by
  obtain ⟨capacity, ops, hcap, hrun⟩ := h
  obtain ⟨c', hc', hwf, _⟩ := run_WF (WF_init capacity hcap) ops
  rw [hrun] at hc'
  cases hc'
  exact hwf

theorem mfind_of_mem {β : Type} {m : Assoc β} {k : String} {e : β}
    (hn : (mkeys m).Nodup) (h : (k, e) ∈ m) : mfind m k = some e := by
  induction m with
  | nil => simp at h
  | cons x m ih =>
    obtain ⟨kx, ex⟩ := x
    have hn' : kx ∉ mkeys m ∧ (mkeys m).Nodup := by simpa [mkeys] using hn
    simp only [List.mem_cons, Prod.mk.injEq] at h
    rcases h with ⟨rfl, rfl⟩ | h
    · simp [mfind]
    · have hk : kx ≠ k := by
        rintro rfl
        exact hn'.1 (List.mem_map_of_mem Prod.fst h)
      simp [mfind, hk, ih hn'.2 h]

theorem WF.mem_keys_iff_mem_mkeys {c : LRUCache} (h : WF c) (k : String) :
    k ∈ c.keys ↔ k ∈ mkeys c.map := by
  rw [mem_mkeys_iff, LRUCache.keys, mem_keys_iff_idOf]
  constructor
  · rintro ⟨p, hp⟩
    obtain ⟨e, he, _⟩ := h.mfind_of_idOf hp
    exact ⟨e, he⟩
  · rintro ⟨e, he⟩
    exact ⟨e.second, h.idOf_of_mfind he⟩

theorem WF.length_keys {c : LRUCache} (h : WF c) : c.keys.length = c.size := by
  have hperm : List.Perm c.keys (mkeys c.map) :=
    (List.perm_ext_iff_of_nodup h.keysNodup h.mapNodup).2 h.mem_keys_iff_mem_mkeys
  simpa [mkeys, LRUCache.size] using hperm.length_eq

/-! ## Capacity bound and index/order bijection -/

/-- C1: for every capacity of at least one and every finite sequence of put, get, remove
and clear calls on the initially empty cache, every initial segment of the sequence runs
to completion, and the cache then holds at most `capacity` keys, counted in the index
(`map.size()`) as well as in the recency list. -/
theorem lru_size_le_capacity (capacity : Nat) (ops : List Op) (n : Nat) (hcap : 1 ≤ capacity) :
    ∃ c, run (LRUCache.init capacity) (ops.take n) = some c ∧
      c.size ≤ capacity ∧ c.keys.length ≤ capacity := by
  obtain ⟨c, hc, hwf, hcapc⟩ := run_WF (WF_init capacity hcap) (ops.take n)
  have hsize : c.size ≤ capacity := by
    have := hwf.size
    rw [hcapc] at this
    exact this
  exact ⟨c, hc, hsize, by rw [hwf.length_keys]; exact hsize⟩

theorem lru_size_le_capacity_witness :
    ∃ c, run (LRUCache.init 1) ([Op.put "a" "1", Op.put "b" "2", Op.get "b"].take 2) = some c ∧
      c.size ≤ 1 ∧ c.keys.length ≤ 1 :=
  lru_size_le_capacity 1 [Op.put "a" "1", Op.put "b" "2", Op.get "b"] 2 (by decide)

/-- C2: in every state reachable from the empty cache (capacity at least one) by put,
get, remove and clear, `order` holds no key twice and no node twice, the index holds no
key twice, `order` and the index hold the same keys, the position stored in an index
entry designates a node of `order` that stores the key of this entry, and every node of
`order` is designated by the index entry of its key. -/
theorem lru_index_order_bijection (c : LRUCache) (h : Reachable c) :
    c.keys.Nodup ∧ (c.order.map Node.id).Nodup ∧ (mkeys c.map).Nodup ∧
      (∀ k, k ∈ c.keys ↔ k ∈ mkeys c.map) ∧
      (∀ k e, (k, e) ∈ c.map → deref c.order e.second = some { id := e.second, key := k }) ∧
      (∀ n, n ∈ c.order → ∃ e, (n.key, e) ∈ c.map ∧ e.second = n.id) := by
  have hwf := h.wf
  refine ⟨hwf.keysNodup, hwf.idsNodup, hwf.mapNodup, hwf.mem_keys_iff_mem_mkeys, ?_, ?_⟩
  · intro k e hmem
    exact deref_of_idOf hwf.idsNodup (hwf.idOf_of_mfind (mfind_of_mem hwf.mapNodup hmem))
  · intro n hn
    obtain ⟨p, hp⟩ := (mem_keys_iff_idOf c.order n.key).1 (List.mem_map_of_mem Node.key hn)
    obtain ⟨e, he, hep⟩ := hwf.mfind_of_idOf hp
    have hmem : (n.key, e) ∈ c.map := by
      have : ∀ (m : Index) (k : String) (e : Entry), mfind m k = some e → (k, e) ∈ m := by
        intro m
        induction m with
        | nil => intro k e hm; simp [mfind] at hm
        | cons x m ih =>
          intro k e hm
          obtain ⟨kx, ex⟩ := x
          by_cases hk : kx = k
          · simp only [mfind, hk, if_true, Option.some.injEq] at hm
            simp [hk, hm]
          · simp only [mfind, hk, if_false] at hm
            exact List.mem_cons_of_mem _ (ih k e hm)
      exact this _ _ _ he
    refine ⟨e, hmem, ?_⟩
    have hd := deref_of_idOf hwf.idsNodup hp
    have hmemn := idOf_mem hp
    -- both nodes store the key of `n`; the keys of `order` are pairwise distinct
    have hinj := List.inj_on_of_nodup_map hwf.keysNodup hn hmemn rfl
    rw [hep, hinj]

theorem lru_index_order_bijection_witness :
    ∃ c, run (LRUCache.init 2) [Op.put "a" "1", Op.put "b" "2", Op.get "a", Op.put "c" "3"] = some c ∧
      c.keys.Nodup ∧ (c.order.map Node.id).Nodup ∧ (mkeys c.map).Nodup ∧
      (∀ k, k ∈ c.keys ↔ k ∈ mkeys c.map) ∧
      (∀ k e, (k, e) ∈ c.map → deref c.order e.second = some { id := e.second, key := k }) ∧
      (∀ n, n ∈ c.order → ∃ e, (n.key, e) ∈ c.map ∧ e.second = n.id) :=
  ⟨_, rfl, lru_index_order_bijection _ ⟨2, [Op.put "a" "1", Op.put "b" "2", Op.get "a", Op.put "c" "3"],
    by decide, rfl⟩⟩

/-! ## The recency list is ordered by last touch -/

theorem traced_run_cache (t : Traced) (ops : List Op) :
    (t.run ops).map Traced.cache = run t.cache ops := by
  induction ops generalizing t with
  | nil => rfl
  | cons op ops ih =>
    cases h : step t.cache op with
    | none => simp [Traced.run, Traced.step, run, h]
    | some c' => simp [Traced.run, Traced.step, run, h, ih]

theorem traced_step_eq {t : Traced} {op : Op} {c' : LRUCache} (h : step t.cache op = some c') :
    t.step op = some
      { cache := c'
        clock := t.clock + 1
        last := fun k => if touches t.cache op k then some t.clock else t.last k } := by
  simp [Traced.step, h]

theorem TWF_init (capacity : Nat) (h : 1 ≤ capacity) : TWF (Traced.init capacity) where
  wf := WF_init capacity h
  stamped := by simp [Traced.init, LRUCache.init, LRUCache.keys]
  sorted := by simp [Traced.init, LRUCache.init, LRUCache.keys]

theorem TWF_touch {t : Traced} (h : TWF t) {c' : LRUCache} {k : String} {rest : List String}
    {last' : String → Option Nat} (hwf : WF c') (hkeys : c'.keys = k :: rest)
    (hsub : rest.Sublist t.cache.keys) (hk : last' k = some t.clock)
    (hrest : ∀ k', k' ∈ rest → last' k' = t.last k') :
    TWF { cache := c', clock := t.clock + 1, last := last' } where
  wf := hwf
  stamped := by
    intro k' hk'
    simp only [hkeys, List.mem_cons] at hk'
    rcases hk' with rfl | hk'
    · exact ⟨t.clock, hk, Nat.lt_succ_self _⟩
    · obtain ⟨s, hs, hlt⟩ := h.stamped k' (hsub.subset hk')
      exact ⟨s, by simp only [hrest k' hk', hs], Nat.lt_succ_of_lt hlt⟩
  sorted := by
    simp only [hkeys, List.pairwise_cons]
    constructor
    · intro b hb sa sb hsa hsb
      obtain ⟨s, hs, hlt⟩ := h.stamped b (hsub.subset hb)
      simp only [hk, Option.some.injEq] at hsa
      simp only [hrest b hb, hs, Option.some.injEq] at hsb
      omega
    · refine (h.sorted.sublist hsub).imp_of_mem ?_
      intro a b ha hb hab sa sb hsa hsb
      simp only [hrest a ha] at hsa
      simp only [hrest b hb] at hsb
      exact hab sa sb hsa hsb

theorem TWF_keep {t : Traced} (h : TWF t) {c' : LRUCache} {last' : String → Option Nat}
    (hwf : WF c') (hsub : c'.keys.Sublist t.cache.keys)
    (hrest : ∀ k', k' ∈ c'.keys → last' k' = t.last k') :
    TWF { cache := c', clock := t.clock + 1, last := last' } where
  wf := hwf
  stamped := by
    intro k' hk'
    obtain ⟨s, hs, hlt⟩ := h.stamped k' (hsub.subset hk')
    exact ⟨s, by simp only [hrest k' hk', hs], Nat.lt_succ_of_lt hlt⟩
  sorted := by
    refine (h.sorted.sublist hsub).imp_of_mem ?_
    intro a b ha hb hab sa sb hsa hsb
    simp only [hrest a ha] at hsa
    simp only [hrest b hb] at hsb
    exact hab sa sb hsa hsb

theorem WF.not_mem_keys {c : LRUCache} (h : WF c) {k : String} (hf : mfind c.map k = none) :
    k ∉ c.keys := by
  rw [h.mem_keys_iff_mem_mkeys, not_mem_mkeys_iff]
  exact hf

theorem traced_step_TWF {t : Traced} (h : TWF t) (op : Op) :
    ∃ t', t.step op = some t' ∧ TWF t' ∧ t'.cache.capacity = t.cache.capacity := by
  have hwf := h.wf
  cases op with
  | put k v =>
    have hne : ∀ rest : List String, k ∉ rest → ∀ k', k' ∈ rest →
        (if touches t.cache (Op.put k v) k' then some t.clock else t.last k') = t.last k' := by
      intro rest hk k' hk'
      have : k ≠ k' := fun hkk => hk (hkk ▸ hk')
      simp [touches, this]
    cases hf : mfind t.cache.map k with
    | some e =>
      obtain ⟨c', hc', hwf', hcap, _, hkeys, _⟩ := put_hit hwf v hf
      refine ⟨_, traced_step_eq (by simpa [step] using hc'), ?_, hcap⟩
      refine TWF_touch h hwf' hkeys (List.erase_sublist _ _) (by simp [touches]) ?_
      exact hne _ (fun hm => (hwf.keysNodup.mem_erase_iff.1 hm).1 rfl)
    | none =>
      have hnot := hwf.not_mem_keys hf
      by_cases hlt : t.cache.map.length < t.cache.capacity
      · obtain ⟨c', hc', hwf', hcap, _, hkeys, _⟩ := put_miss_room hwf v hf hlt
        refine ⟨_, traced_step_eq (by simpa [step] using hc'), ?_, hcap⟩
        exact TWF_touch h hwf' hkeys (List.Sublist.refl _) (by simp [touches]) (hne _ hnot)
      · obtain ⟨c', _, hc', hwf', hcap, _, _, _, hkeys, _⟩ :=
          put_miss_full hwf v hf (Nat.not_lt.1 hlt)
        refine ⟨_, traced_step_eq (by simpa [step] using hc'), ?_, hcap⟩
        refine TWF_touch h hwf' hkeys (List.dropLast_sublist _) (by simp [touches]) ?_
        exact hne _ (fun hm => hnot ((List.dropLast_sublist _).subset hm))
  | get k =>
    cases hf : mfind t.cache.map k with
    | some e =>
      obtain ⟨c', hc', hwf', hcap, _, hkeys, _⟩ := get_hit hwf "" hf
      refine ⟨_, @traced_step_eq t (Op.get k) c' (by simp [step, hc']), ?_, hcap⟩
      refine TWF_touch h hwf' hkeys (List.erase_sublist _ _) (by simp [touches, hf]) ?_
      intro k' hk'
      have : k ≠ k' := fun hkk => (hwf.keysNodup.mem_erase_iff.1 (hkk ▸ hk')).1 rfl
      simp [touches, this]
    | none =>
      refine ⟨_, traced_step_eq (by simp [step, get_miss "" hf]), ?_, rfl⟩
      exact TWF_keep h hwf (List.Sublist.refl _) (by simp [touches, hf])
  | remove k =>
    cases hf : mfind t.cache.map k with
    | some e =>
      obtain ⟨c', hc', hwf', hcap, _, hkeys, _⟩ := remove_hit hwf hf
      refine ⟨_, traced_step_eq (by simpa [step] using hc'), ?_, hcap⟩
      exact TWF_keep h hwf' (hkeys ▸ List.erase_sublist _ _) (by simp [touches])
    | none =>
      refine ⟨_, traced_step_eq (by simpa [step] using remove_miss hf), ?_, rfl⟩
      exact TWF_keep h hwf (List.Sublist.refl _) (by simp [touches])
  | clear =>
    refine ⟨_, @traced_step_eq t Op.clear t.cache.clear rfl, ?_, rfl⟩
    exact TWF_keep h (WF_clear hwf) (by simp [LRUCache.clear, LRUCache.keys]) (by simp [touches])

theorem traced_run_TWF {t : Traced} (h : TWF t) (ops : List Op) :
    ∃ t', t.run ops = some t' ∧ TWF t' ∧ t'.cache.capacity = t.cache.capacity := by
  induction ops generalizing t with
  | nil => exact ⟨t, rfl, h, rfl⟩
  | cons op ops ih =>
    obtain ⟨t1, h1, htwf1, hcap1⟩ := traced_step_TWF h op
    obtain ⟨t2, h2, htwf2, hcap2⟩ := ih htwf1
    exact ⟨t2, by simp [Traced.run, h1, h2], htwf2, hcap2.trans hcap1⟩

theorem TWF.oldest_last {t : Traced} (h : TWF t) {victim : String}
    (hl : t.cache.keys.getLast? = some victim) (k' : String) (hk' : k' ∈ t.cache.keys)
    (hne : k' ≠ victim) :
    ∃ sv sk, t.last victim = some sv ∧ t.last k' = some sk ∧ sv < sk := by
  have hsplit : t.cache.keys = t.cache.keys.dropLast ++ [victim] :=
    (List.dropLast_append_getLast? victim (by simpa using hl)).symm
  have hv : victim ∈ t.cache.keys := by
    rw [hsplit]
    simp
  have hk : k' ∈ t.cache.keys.dropLast := by
    rw [hsplit] at hk'
    simpa [hne] using hk'
  obtain ⟨sv, hsv, _⟩ := h.stamped victim hv
  obtain ⟨sk, hsk, _⟩ := h.stamped k' hk'
  have hs := h.sorted
  rw [hsplit, List.pairwise_append] at hs
  exact ⟨sv, sk, hsv, hsk, hs.2.2 k' hk victim (List.mem_singleton_self _) sk sv hsk hsv⟩

theorem lookup_eq_none_iff (c : LRUCache) (k : String) :
    c.lookup k = none ↔ mfind c.map k = none := by
  simp [LRUCache.lookup]

theorem lookup_eq_some_iff (c : LRUCache) (k w : String) :
    c.lookup k = some w ↔ ∃ e, mfind c.map k = some e ∧ e.first = w := by
  simp [LRUCache.lookup]

theorem erase_of_pair {l : List String} {a b : String} (hn : l.Nodup) (ha : a ∈ l)
    (hb : b ∈ l) (hab : a ≠ b) (hlen : l.length ≤ 2) : l.erase a = [b] := by
  rcases l with _ | ⟨x, _ | ⟨y, _ | ⟨z, l⟩⟩⟩
  · simp at ha
  · simp at ha hb
    exact absurd (ha.trans hb.symm) hab
  · simp only [List.mem_cons, List.mem_singleton, List.not_mem_nil, or_false] at ha hb
    simp only [List.nodup_cons, List.mem_singleton, List.not_mem_nil, not_false_eq_true,
      List.nodup_nil, and_true] at hn
    rcases ha with rfl | rfl <;> rcases hb with rfl | rfl
    · exact absurd rfl hab
    · simp
    · simp [List.erase_cons, hn]
    · exact absurd rfl hab
  · simp at hlen

theorem erase_eq_filter_ne {l : List String} (hn : l.Nodup) (k : String) :
    l.erase k = l.filter fun x => decide (x ≠ k) := by
  rw [hn.erase_eq_filter]
  congr 1
  funext x
  by_cases h : x = k <;> simp [h]

/-! ## Eviction of the least recently used key -/

/-- C3: for every capacity of at least one and every sequence of calls on the initially
empty cache, a `put(k, v)` of an absent key into a cache holding exactly `capacity` keys
completes and evicts exactly one key, the held key whose last touch (a put of it or a
hit get of it) is earlier than that of every other held key; every other key keeps its
value, `k` is stored with `v`, and the cache still holds `capacity` keys.  Touch on read:
in a capacity-2 cache holding `a` and `b`, `get(a)` then a `put` of an absent key evicts
`b` and keeps `a`.  Concrete scenario: with capacity 3,
`put(k1,v1); put(k2,v2); put(k3,v3); get(k1); put(k4,v4)` leaves exactly
`k1:v1, k3:v3, k4:v4`. -/
theorem lru_put_evicts_least_recent :
    (∀ (capacity : Nat) (ops : List Op) (t : Traced) (k v : String),
      1 ≤ capacity → (Traced.init capacity).run ops = some t →
      t.cache.lookup k = none → t.cache.size = capacity →
      ∃ c' victim, t.cache.put k v = some c' ∧
        (∃ w, t.cache.lookup victim = some w) ∧
        (∀ k', k' ≠ victim → (∃ w, t.cache.lookup k' = some w) →
          ∃ sv sk, t.last victim = some sv ∧ t.last k' = some sk ∧ sv < sk) ∧
        c'.lookup victim = none ∧
        (∀ k', k' ≠ victim → k' ≠ k → c'.lookup k' = t.cache.lookup k') ∧
        c'.lookup k = some v ∧ c'.size = capacity) ∧
    (∀ (c : LRUCache) (a b x vx out : String),
      Reachable c → c.capacity = 2 → a ≠ b →
      (∃ va, c.lookup a = some va) → (∃ vb, c.lookup b = some vb) → c.lookup x = none →
      ∃ r c1 c2, c.get a out = some (true, r, c1) ∧ c1.put x vx = some c2 ∧
        c2.lookup b = none ∧ c2.lookup a = c.lookup a ∧ c2.lookup x = some vx) ∧
    (∀ (k1 k2 k3 k4 v1 v2 v3 v4 : String),
      k1 ≠ k2 → k1 ≠ k3 → k1 ≠ k4 → k2 ≠ k3 → k2 ≠ k4 → k3 ≠ k4 →
      ∃ s, run (LRUCache.init 3)
          [Op.put k1 v1, Op.put k2 v2, Op.put k3 v3, Op.get k1, Op.put k4 v4] = some s ∧
        s.keys = [k4, k1, k3] ∧ s.lookup k1 = some v1 ∧ s.lookup k2 = none ∧
        s.lookup k3 = some v3 ∧ s.lookup k4 = some v4 ∧
        ∀ k, k ≠ k1 → k ≠ k3 → k ≠ k4 → s.lookup k = none) := by
  refine ⟨?_, ?_, ?_⟩
  · intro capacity ops t k v hcap hrun hk hsize
    obtain ⟨t', ht', htwf, hcapt⟩ := traced_run_TWF (TWF_init capacity hcap) ops
    rw [hrun] at ht'
    cases ht'
    have hwf := htwf.wf
    have hcapt' : t.cache.capacity = capacity := hcapt
    have hf := (lookup_eq_none_iff _ _).1 hk
    have hge : t.cache.capacity ≤ t.cache.map.length := by
      rw [hcapt']
      exact Nat.le_of_eq hsize.symm
    obtain ⟨c', victim, hput, _, _, hsz, hlast, hvk, hkeys, hlook⟩ := put_miss_full hwf v hf hge
    have hvmem : victim ∈ t.cache.keys := List.mem_of_mem_getLast? hlast
    refine ⟨c', victim, hput, (hwf.mem_keys_iff victim).1 hvmem, ?_, ?_, ?_, ?_, ?_⟩
    · intro k' hne hpres
      exact htwf.oldest_last hlast k' ((hwf.mem_keys_iff k').2 hpres) hne
    · rw [hlook]
      simp [Ne.symm hvk]
    · intro k' hne hnek
      rw [hlook]
      simp [Ne.symm hne, Ne.symm hnek]
    · rw [hlook]
      simp
    · rw [hsz]
      exact hsize
  · intro c a b x vx out hreach hcap hab ⟨va, hva⟩ ⟨vb, hvb⟩ hx
    have hwf := hreach.wf
    obtain ⟨e, he, hev⟩ := (lookup_eq_some_iff _ _ _).1 hva
    obtain ⟨c1, hget, hwf1, hcap1, hsize1, hkeys1, hlook1⟩ := get_hit hwf out he
    have hamem := (hwf.mem_keys_iff a).2 ⟨va, hva⟩
    have hbmem := (hwf.mem_keys_iff b).2 ⟨vb, hvb⟩
    have hlen : c.keys.length ≤ 2 := by
      rw [hwf.length_keys, ← hcap]
      exact hwf.size
    have herase : c.keys.erase a = [b] := erase_of_pair hwf.keysNodup hamem hbmem hab hlen
    rw [herase] at hkeys1
    have hx1 : mfind c1.map x = none := by
      rw [← lookup_eq_none_iff, hlook1]
      exact hx
    have hfull : c1.capacity ≤ c1.map.length := by
      have h2 : c1.keys.length = c1.size := hwf1.length_keys
      rw [hkeys1] at h2
      rw [hcap1, hcap]
      exact Nat.le_of_eq h2
    obtain ⟨c2, victim, hput, _, _, _, hlast, hvk, _, hlook2⟩ := put_miss_full hwf1 vx hx1 hfull
    rw [hkeys1] at hlast
    simp only [List.getLast?_cons_cons, List.getLast?_singleton, Option.some.injEq] at hlast
    subst hlast
    refine ⟨e.first, c1, c2, hget, hput, ?_, ?_, ?_⟩
    · rw [hlook2]
      simp [Ne.symm hvk]
    · have hax : x ≠ a := by
        rintro rfl
        rw [hx] at hva
        cases hva
      rw [hlook2, hlook1]
      simp [hax, Ne.symm hab]
    · rw [hlook2]
      simp
  · intro k1 k2 k3 k4 v1 v2 v3 v4 h12 h13 h14 h23 h24 h34
    simp [run, step, LRUCache.init, LRUCache.put, LRUCache.get, LRUCache.touch, LRUCache.keys,
      LRUCache.lookup, mfind, mset, merase, deref, eraseAt, h12, h13, h14, h23, h24, h34,
      Ne.symm h12, Ne.symm h13, Ne.symm h14, Ne.symm h23, Ne.symm h24, Ne.symm h34]
    intro k hk1 hk3 hk4
    simp [Ne.symm hk1, Ne.symm hk3, Ne.symm hk4]

theorem lru_put_evicts_least_recent_witness :
    ∃ t, (Traced.init 2).run [Op.put "a" "1", Op.put "b" "2", Op.get "a"] = some t ∧
      t.cache.lookup "c" = none ∧ t.cache.size = 2 ∧
      ∃ c' victim, t.cache.put "c" "3" = some c' ∧
        (∃ w, t.cache.lookup victim = some w) ∧
        (∀ k', k' ≠ victim → (∃ w, t.cache.lookup k' = some w) →
          ∃ sv sk, t.last victim = some sv ∧ t.last k' = some sk ∧ sv < sk) ∧
        c'.lookup victim = none ∧
        (∀ k', k' ≠ victim → k' ≠ "c" → c'.lookup k' = t.cache.lookup k') ∧
        c'.lookup "c" = some "3" ∧ c'.size = 2 := by
  refine ⟨_, rfl, by decide, by decide, ?_⟩
  exact lru_put_evicts_least_recent.1 2 [Op.put "a" "1", Op.put "b" "2", Op.get "a"] _ "c" "3"
    (by decide) rfl (by decide) (by decide)

/-- C4, as stated, fails: with capacity 2, after `put(a); put(b); put(c)` the key `a` is
not evicted by the next `put(d)`.  It is already gone before that call, removed by
`put(c)`, and the key `put(d)` evicts is `b`. -/
theorem lru_recency_scenario_counterexample :
    (¬ ∃ s3, run (LRUCache.init 2) [Op.put "a" "1", Op.put "b" "2", Op.put "c" "3"] = some s3 ∧
        evicts s3 "d" "4" "a" = true) ∧
    (run (LRUCache.init 2) [Op.put "a" "1", Op.put "b" "2", Op.put "c" "3"]).map
        (fun s3 => (s3.lookup "a", evicts s3 "d" "4" "b")) = some (none, true) := by
  constructor
  · rintro ⟨s3, hrun, hev⟩
    have h3 : run (LRUCache.init 2) [Op.put "a" "1", Op.put "b" "2", Op.put "c" "3"] =
        some { capacity := 2,
               map := [("b", { first := "2", second := 1 }), ("c", { first := "3", second := 2 })],
               order := [{ id := 2, key := "c" }, { id := 1, key := "b" }],
               next := 3 } := by decide
    rw [h3] at hrun
    cases hrun
    revert hev
    decide
  · decide

/-- C4, amended: in a capacity-2 cache that starts empty, for pairwise distinct keys
`a, b, c, d`, after `put(a); put(b)` the call `put(c)` evicts `a`; the next call `put(d)`
evicts `b` (and not `a`, which is no longer held); a `get(a)` issued after that `put(d)`
misses and changes nothing. -/
theorem lru_recency_scenario (a b c d va vb vc vd out : String)
    (hab : a ≠ b) (hac : a ≠ c) (had : a ≠ d) (hbc : b ≠ c) (hbd : b ≠ d) (hcd : c ≠ d) :
    ∃ s2 s3 s4, run (LRUCache.init 2) [Op.put a va, Op.put b vb] = some s2 ∧
      s2.put c vc = some s3 ∧ s3.put d vd = some s4 ∧
      evicts s2 c vc a = true ∧ s3.lookup a = none ∧
      evicts s3 d vd b = true ∧ evicts s3 d vd a = false ∧
      s4.get a out = some (false, out, s4) := by
  simp [run, step, evicts, LRUCache.init, LRUCache.put, LRUCache.get, LRUCache.touch,
    LRUCache.lookup, mfind, mset, merase, deref, eraseAt, hab, hac, had, hbc, hbd, hcd,
    Ne.symm hab, Ne.symm hac, Ne.symm had, Ne.symm hbc, Ne.symm hbd, Ne.symm hcd]

theorem lru_recency_scenario_witness :
    ∃ s2 s3 s4, run (LRUCache.init 2) [Op.put "a" "1", Op.put "b" "2"] = some s2 ∧
      s2.put "c" "3" = some s3 ∧ s3.put "d" "4" = some s4 ∧
      evicts s2 "c" "3" "a" = true ∧ s3.lookup "a" = none ∧
      evicts s3 "d" "4" "b" = true ∧ evicts s3 "d" "4" "a" = false ∧
      s4.get "a" "" = some (false, "", s4) :=
  lru_recency_scenario "a" "b" "c" "d" "1" "2" "3" "4" "" (by decide) (by decide) (by decide)
    (by decide) (by decide) (by decide)

/-! ## Frame properties of `put`, `get` and `remove` -/

/-- C5: in every reachable state (capacity at least one), a `put(k, v)` of a key that is
held completes, stores `v` for `k`, makes `k` the head of `order` and leaves the other
keys of `order` in their previous relative order, evicts nothing (same number of keys,
same set of keys, also when the cache is full) and leaves the value of every other key
unchanged. -/
theorem lru_put_existing (c : LRUCache) (k v : String) (h : Reachable c)
    (hk : ∃ w, c.lookup k = some w) :
    ∃ c', c.put k v = some c' ∧ c'.lookup k = some v ∧
      c'.keys = k :: c.keys.filter (fun x => decide (x ≠ k)) ∧
      c'.size = c.size ∧ (∀ k', k' ∈ c'.keys ↔ k' ∈ c.keys) ∧
      (∀ k', k' ≠ k → c'.lookup k' = c.lookup k') := by
  have hwf := h.wf
  obtain ⟨w, hw⟩ := hk
  obtain ⟨e, he, _⟩ := (lookup_eq_some_iff _ _ _).1 hw
  obtain ⟨c', hput, hwf', _, hsize, hkeys, hlook⟩ := put_hit hwf v he
  refine ⟨c', hput, ?_, ?_, hsize, ?_, ?_⟩
  · rw [hlook]
    simp
  · rw [hkeys, erase_eq_filter_ne (l := c.keys) hwf.keysNodup]
  · intro k'
    rw [hwf'.mem_keys_iff, hwf.mem_keys_iff, hlook]
    by_cases hkk : k = k'
    · subst hkk
      simp [hw]
    · simp [hkk]
  · intro k' hne
    rw [hlook]
    simp [Ne.symm hne]

theorem lru_put_existing_witness :
    ∃ c, run (LRUCache.init 2) [Op.put "a" "1", Op.put "b" "2"] = some c ∧
      ∃ c', c.put "a" "9" = some c' ∧ c'.lookup "a" = some "9" ∧
        c'.keys = "a" :: c.keys.filter (fun x => decide (x ≠ "a")) ∧
        c'.size = c.size ∧ (∀ k', k' ∈ c'.keys ↔ k' ∈ c.keys) ∧
        (∀ k', k' ≠ "a" → c'.lookup k' = c.lookup k') :=
  ⟨_, rfl, lru_put_existing _ "a" "9" ⟨2, [Op.put "a" "1", Op.put "b" "2"], by decide, rfl⟩
    ⟨"1", by decide⟩⟩

/-- C6: in every reachable state, a `get(k)` of a key that is not held reports not-found
and leaves the cache (index, order) and the caller's output value as they were; a
`get(k)` of a held key reports found and delivers the value stored for `k`, leaves the
set of keys and every stored value unchanged, and changes `order` only by moving `k` to
its head. -/
theorem lru_get_frame (c : LRUCache) (k out : String) (h : Reachable c) :
    (c.lookup k = none → c.get k out = some (false, out, c)) ∧
    (∀ w, c.lookup k = some w →
      ∃ c', c.get k out = some (true, w, c') ∧
        (∀ k', c'.lookup k' = c.lookup k') ∧ (∀ k', k' ∈ c'.keys ↔ k' ∈ c.keys) ∧
        c'.size = c.size ∧ c'.keys = k :: c.keys.filter (fun x => decide (x ≠ k))) := by
  have hwf := h.wf
  constructor
  · intro hk
    exact get_miss out ((lookup_eq_none_iff _ _).1 hk)
  · intro w hw
    obtain ⟨e, he, hev⟩ := (lookup_eq_some_iff _ _ _).1 hw
    obtain ⟨c', hget, hwf', _, hsize, hkeys, hlook⟩ := get_hit hwf out he
    refine ⟨c', by rw [hget, hev], hlook, ?_, hsize, ?_⟩
    · intro k'
      rw [hwf'.mem_keys_iff, hwf.mem_keys_iff, hlook]
    · rw [hkeys, erase_eq_filter_ne (l := c.keys) hwf.keysNodup]

theorem lru_get_frame_witness :
    ∃ c, run (LRUCache.init 2) [Op.put "a" "1", Op.put "b" "2"] = some c ∧
      (c.lookup "a" = none → c.get "a" "x" = some (false, "x", c)) ∧
      (∀ w, c.lookup "a" = some w →
        ∃ c', c.get "a" "x" = some (true, w, c') ∧
          (∀ k', c'.lookup k' = c.lookup k') ∧ (∀ k', k' ∈ c'.keys ↔ k' ∈ c.keys) ∧
          c'.size = c.size ∧ c'.keys = "a" :: c.keys.filter (fun x => decide (x ≠ "a"))) :=
  ⟨_, rfl, lru_get_frame _ "a" "x" ⟨2, [Op.put "a" "1", Op.put "b" "2"], by decide, rfl⟩⟩

/-- C7: in every reachable state, `remove(k)` of a key that is not held leaves the state
unchanged; `remove(k)` of a held key completes and deletes `k` from the index and from
`order`, so that a following `get(k)` misses, while every other key keeps its value and
the other keys of `order` keep their relative order. -/
theorem lru_remove_frame (c : LRUCache) (k out : String) (h : Reachable c) :
    (c.lookup k = none → c.remove k = some c) ∧
    (∀ w, c.lookup k = some w →
      ∃ c', c.remove k = some c' ∧ c'.lookup k = none ∧ k ∉ mkeys c'.map ∧ k ∉ c'.keys ∧
        c'.get k out = some (false, out, c') ∧
        (∀ k', k' ≠ k → c'.lookup k' = c.lookup k') ∧
        c'.keys = c.keys.filter (fun x => decide (x ≠ k))) := by
  have hwf := h.wf
  constructor
  · intro hk
    exact remove_miss ((lookup_eq_none_iff _ _).1 hk)
  · intro w hw
    obtain ⟨e, he, _⟩ := (lookup_eq_some_iff _ _ _).1 hw
    obtain ⟨c', hrem, hwf', _, _, hkeys, hlook⟩ := remove_hit hwf he
    have hnone : c'.lookup k = none := by
      rw [hlook]
      simp
    have hf := (lookup_eq_none_iff _ _).1 hnone
    refine ⟨c', hrem, hnone, (not_mem_mkeys_iff _ _).2 hf, hwf'.not_mem_keys hf,
      get_miss out hf, ?_, ?_⟩
    · intro k' hne
      rw [hlook]
      simp [Ne.symm hne]
    · rw [hkeys, erase_eq_filter_ne (l := c.keys) hwf.keysNodup]

theorem lru_remove_frame_witness :
    ∃ c, run (LRUCache.init 2) [Op.put "a" "1", Op.put "b" "2"] = some c ∧
      (c.lookup "a" = none → c.remove "a" = some c) ∧
      (∀ w, c.lookup "a" = some w →
        ∃ c', c.remove "a" = some c' ∧ c'.lookup "a" = none ∧ "a" ∉ mkeys c'.map ∧
          "a" ∉ c'.keys ∧ c'.get "a" "x" = some (false, "x", c') ∧
          (∀ k', k' ≠ "a" → c'.lookup k' = c.lookup k') ∧
          c'.keys = c.keys.filter (fun x => decide (x ≠ "a"))) :=
  ⟨_, rfl, lru_remove_frame _ "a" "x" ⟨2, [Op.put "a" "1", Op.put "b" "2"], by decide, rfl⟩⟩

/-! ## The request handler -/

theorem param_eq_empty_iff (params : Params) (name : String) :
    param params name = "" ↔ missingOrEmpty params name := by
  unfold param missingOrEmpty
  cases mfind params name <;> simp

theorem handle_create {path : String} {k v : String} (exc : Bool) (s : Server)
    (he : endpointOf path = "/create")
    (hk : param (parse_query_string path) "key" = k)
    (hv : param (parse_query_string path) "value" = v) (hk0 : k ≠ "") (hv0 : v ≠ "") :
    handle_connection path exc s =
      match s.cache.put k v with
      | none => none
      | some c1 =>
        if (Storage.put s.table k v exc).1 then
          some ({ body := "Created key=" ++ k ++ "\n", status := 200 },
            ⟨c1, (Storage.put s.table k v exc).2⟩)
        else some ({ body := "DB error\n", status := 500 }, ⟨c1, (Storage.put s.table k v exc).2⟩) := by
  simp only [handle_connection, he, hk, hv, hk0, hv0, if_true, or_self, if_false]

theorem handle_read {path : String} {k : String} (exc : Bool) (s : Server)
    (he : endpointOf path = "/read")
    (hk : param (parse_query_string path) "key" = k) (hk0 : k ≠ "") :
    handle_connection path exc s =
      match s.cache.get k "" with
      | none => none
      | some (true, v, c1) =>
        some ({ body := "Cache hit: " ++ v ++ "\n", status := 200 }, ⟨c1, s.table⟩)
      | some (false, v, c1) =>
        if (Storage.get s.table k v exc).1 then
          match c1.put k (Storage.get s.table k v exc).2 with
          | none => none
          | some c2 =>
            some ({ body := "Cache miss -> DB: " ++ (Storage.get s.table k v exc).2 ++ "\n",
                    status := 200 }, ⟨c2, s.table⟩)
        else some ({ body := "Key not found\n", status := 404 }, ⟨c1, s.table⟩) := by
  have h1 : ¬ ("/read" = "/create") := by decide
  simp only [handle_connection, he, hk, hk0, h1, if_true, if_false]

theorem handle_delete {path : String} {k : String} (exc : Bool) (s : Server)
    (he : endpointOf path = "/delete")
    (hk : param (parse_query_string path) "key" = k) (hk0 : k ≠ "") :
    handle_connection path exc s =
      match s.cache.remove k with
      | none => none
      | some c1 =>
        if (Storage.remove s.table k exc).1 then
          some ({ body := "Deleted key=" ++ k ++ "\n", status := 200 },
            ⟨c1, (Storage.remove s.table k exc).2⟩)
        else
          some ({ body := "Key not found\n", status := 404 },
            ⟨c1, (Storage.remove s.table k exc).2⟩) := by
  have h1 : ¬ ("/delete" = "/create") := by decide
  have h2 : ¬ ("/delete" = "/read") := by decide
  simp only [handle_connection, he, hk, hk0, h1, h2, if_true, if_false]

theorem put_total {c : LRUCache} (h : WF c) (k v : String) :
    ∃ c', c.put k v = some c' ∧ WF c' ∧ c'.lookup k = some v := by
  cases hf : mfind c.map k with
  | some e =>
    obtain ⟨c', hc', hwf, _, _, _, hlook⟩ := put_hit h v hf
    exact ⟨c', hc', hwf, by rw [hlook]; simp⟩
  | none =>
    by_cases hlt : c.map.length < c.capacity
    · obtain ⟨c', hc', hwf, _, _, _, hlook⟩ := put_miss_room h v hf hlt
      exact ⟨c', hc', hwf, by rw [hlook]; simp⟩
    · obtain ⟨c', _, hc', hwf, _, _, _, _, _, hlook⟩ := put_miss_full h v hf (Nat.not_lt.1 hlt)
      exact ⟨c', hc', hwf, by rw [hlook]; simp⟩

theorem get_of_lookup {c : LRUCache} (h : WF c) {k w : String} (out : String)
    (hw : c.lookup k = some w) :
    ∃ c', c.get k out = some (true, w, c') ∧ WF c' ∧ ∀ k', c'.lookup k' = c.lookup k' := by
  obtain ⟨e, he, hev⟩ := (lookup_eq_some_iff _ _ _).1 hw
  obtain ⟨c', hget, hwf, _, _, _, hlook⟩ := get_hit h out he
  exact ⟨c', by rw [hget, hev], hwf, hlook⟩

theorem remove_total {c : LRUCache} (h : WF c) (k : String) :
    ∃ c', c.remove k = some c' ∧ WF c' ∧ c'.lookup k = none := by
  cases hf : mfind c.map k with
  | some e =>
    obtain ⟨c', hc', hwf, _, _, _, hlook⟩ := remove_hit h hf
    exact ⟨c', hc', hwf, by rw [hlook]; simp⟩
  | none => exact ⟨c, remove_miss hf, h, (lookup_eq_none_iff _ _).2 hf⟩

/-- C8: for every cache and store state, a Create request whose `key` parameter is
missing or empty or whose `value` parameter is missing or empty, a Read request whose
`key` is missing or empty and a Delete request whose `key` is missing or empty are
answered with status 400, and cache and store are left as they were, whether or not the
store would fail. -/
theorem handler_validation (path : String) (exc : Bool) (s : Server)
    (h : (endpointOf path = "/create" ∧
            (missingOrEmpty (parse_query_string path) "key" ∨
              missingOrEmpty (parse_query_string path) "value")) ∨
          (endpointOf path = "/read" ∧ missingOrEmpty (parse_query_string path) "key") ∨
          (endpointOf path = "/delete" ∧ missingOrEmpty (parse_query_string path) "key")) :
    ∃ r, handle_connection path exc s = some (r, s) ∧ r.status = 400 := by
  have h1 : ¬ ("/read" = "/create") := by decide
  have h2 : ¬ ("/delete" = "/create") := by decide
  have h3 : ¬ ("/delete" = "/read") := by decide
  rcases h with ⟨he, hp⟩ | ⟨he, hp⟩ | ⟨he, hp⟩
  · refine ⟨{ body := "Missing key or value\n", status := 400 }, ?_, rfl⟩
    rw [← param_eq_empty_iff, ← param_eq_empty_iff] at hp
    simp only [handle_connection, he, hp, if_true]
  · refine ⟨{ body := "Missing key\n", status := 400 }, ?_, rfl⟩
    rw [← param_eq_empty_iff] at hp
    simp only [handle_connection, he, hp, h1, if_true, if_false]
  · refine ⟨{ body := "Missing key\n", status := 400 }, ?_, rfl⟩
    rw [← param_eq_empty_iff] at hp
    simp only [handle_connection, he, hp, h2, h3, if_true, if_false]

theorem handler_validation_witness :
    ∃ r, handle_connection "/create?key=&value=v" true ⟨LRUCache.init 2, [("a", "1")]⟩ =
        some (r, ⟨LRUCache.init 2, [("a", "1")]⟩) ∧ r.status = 400 :=
  handler_validation "/create?key=&value=v" true ⟨LRUCache.init 2, [("a", "1")]⟩
    (Or.inl ⟨by decide, Or.inl (Or.inr (by decide))⟩)

/-- C9: for every non-empty key `k` and non-empty value `v`, with a store whose
operations succeed: handling Create(k, v) and then Read(k) answers status 200 with the
cache-hit body carrying `v`, whether or not the store would answer; clearing the cache
and handling Read(k) again answers status 200 with the cache-miss-resolved-via-store
body carrying the same `v`.  Every body ends with a line feed. -/
theorem create_read_roundtrip (pc pr k v : String) (exc : Bool) (s : Server)
    (hs : Reachable s.cache) (hk0 : k ≠ "") (hv0 : v ≠ "")
    (hc : endpointOf pc = "/create") (hck : param (parse_query_string pc) "key" = k)
    (hcv : param (parse_query_string pc) "value" = v)
    (hr : endpointOf pr = "/read") (hrk : param (parse_query_string pr) "key" = k) :
    ∃ s1 s2 s3,
      handle_connection pc false s =
        some ({ body := "Created key=" ++ k ++ "\n", status := 200 }, s1) ∧
      handle_connection pr exc s1 =
        some ({ body := "Cache hit: " ++ v ++ "\n", status := 200 }, s2) ∧
      handle_connection pr false s2.clearCache =
        some ({ body := "Cache miss -> DB: " ++ v ++ "\n", status := 200 }, s3) ∧
      s3.cache.lookup k = some v ∧ mfind s3.table k = some v := by
  have hwf := hs.wf
  obtain ⟨c1, hput, hwf1, hlook1⟩ := put_total hwf k v
  obtain ⟨c2, hget, hwf2, _⟩ := get_of_lookup hwf1 "" hlook1
  have hwf3 : WF c2.clear := WF_clear hwf2
  have hmiss : c2.clear.get k "" = some (false, "", c2.clear) :=
    get_miss "" (by simp [LRUCache.clear, mfind])
  obtain ⟨c4, hput4, _, hlook4⟩ := put_total hwf3 k v
  have htab : mfind (mset s.table k v) k = some v := by simp [mfind_mset]
  refine ⟨⟨c1, mset s.table k v⟩, ⟨c2, mset s.table k v⟩, ⟨c4, mset s.table k v⟩, ?_, ?_, ?_,
    hlook4, htab⟩
  · rw [handle_create false s hc hck hcv hk0 hv0]
    simp [hput, Storage.put]
  · rw [handle_read exc _ hr hrk hk0]
    simp [hget]
  · rw [handle_read false _ hr hrk hk0]
    simp [Server.clearCache, hmiss, Storage.get, htab, hput4]

theorem create_read_roundtrip_witness :
    ∃ s1 s2 s3,
      handle_connection "/create?key=k1&value=v1" false ⟨LRUCache.init 2, []⟩ =
        some ({ body := "Created key=" ++ "k1" ++ "\n", status := 200 }, s1) ∧
      handle_connection "/read?key=k1" true s1 =
        some ({ body := "Cache hit: " ++ "v1" ++ "\n", status := 200 }, s2) ∧
      handle_connection "/read?key=k1" false s2.clearCache =
        some ({ body := "Cache miss -> DB: " ++ "v1" ++ "\n", status := 200 }, s3) ∧
      s3.cache.lookup "k1" = some "v1" ∧ mfind s3.table "k1" = some "v1" :=
  create_read_roundtrip "/create?key=k1&value=v1" "/read?key=k1" "k1" "v1" true
    ⟨LRUCache.init 2, []⟩ ⟨2, [], by decide, rfl⟩ (by decide) (by decide) (by decide)
    (by decide) (by decide) (by decide) (by decide)

/-- C10: for every non-empty key `k` and non-empty value `v`, from any store state and
any reachable cache state, with a store whose operations succeed: handling Create(k, v),
then Delete(k), then Read(k) answers the Read with status 404 (key not found), and after
the Delete `k` is held neither by the cache nor by the store. -/
theorem create_delete_read (pc pd pr k v : String) (s : Server)
    (hs : Reachable s.cache) (hk0 : k ≠ "") (hv0 : v ≠ "")
    (hc : endpointOf pc = "/create") (hck : param (parse_query_string pc) "key" = k)
    (hcv : param (parse_query_string pc) "value" = v)
    (hd : endpointOf pd = "/delete") (hdk : param (parse_query_string pd) "key" = k)
    (hr : endpointOf pr = "/read") (hrk : param (parse_query_string pr) "key" = k) :
    ∃ s1 s2,
      handle_connection pc false s =
        some ({ body := "Created key=" ++ k ++ "\n", status := 200 }, s1) ∧
      handle_connection pd false s1 =
        some ({ body := "Deleted key=" ++ k ++ "\n", status := 200 }, s2) ∧
      s2.cache.lookup k = none ∧ k ∉ s2.cache.keys ∧ mfind s2.table k = none ∧
      handle_connection pr false s2 = some ({ body := "Key not found\n", status := 404 }, s2) := by
  have hwf := hs.wf
  obtain ⟨c1, hput, hwf1, _⟩ := put_total hwf k v
  obtain ⟨c2, hrem, hwf2, hlook2⟩ := remove_total hwf1 k
  have hf2 := (lookup_eq_none_iff _ _).1 hlook2
  have htab : mfind (merase (mset s.table k v) k) k = none := by simp [mfind_merase]
  refine ⟨⟨c1, mset s.table k v⟩, ⟨c2, merase (mset s.table k v) k⟩, ?_, ?_, hlook2,
    hwf2.not_mem_keys hf2, htab, ?_⟩
  · rw [handle_create false s hc hck hcv hk0 hv0]
    simp [hput, Storage.put]
  · rw [handle_delete false _ hd hdk hk0]
    simp [hrem, Storage.remove]
  · rw [handle_read false _ hr hrk hk0]
    simp [get_miss "" hf2, Storage.get, htab]

theorem create_delete_read_witness :
    ∃ s1 s2,
      handle_connection "/create?key=k1&value=v1" false ⟨LRUCache.init 2, [("k1", "old")]⟩ =
        some ({ body := "Created key=" ++ "k1" ++ "\n", status := 200 }, s1) ∧
      handle_connection "/delete?key=k1" false s1 =
        some ({ body := "Deleted key=" ++ "k1" ++ "\n", status := 200 }, s2) ∧
      s2.cache.lookup "k1" = none ∧ "k1" ∉ s2.cache.keys ∧ mfind s2.table "k1" = none ∧
      handle_connection "/read?key=k1" false s2 =
        some ({ body := "Key not found\n", status := 404 }, s2) :=
  create_delete_read "/create?key=k1&value=v1" "/delete?key=k1" "/read?key=k1" "k1" "v1"
    ⟨LRUCache.init 2, [("k1", "old")]⟩ ⟨2, [], by decide, rfl⟩ (by decide) (by decide)
    (by decide) (by decide) (by decide) (by decide) (by decide) (by decide) (by decide)

/-! ## Store failures and read-through -/

/-- C11: for every non-empty key `k` and non-empty value `v`, when the store's put fails
while Create(k, v) is handled, the answer has status 500, the table is as before and the
cache holds `k` with `v`; a Read(k) that follows is answered with the cache-hit body
carrying `v`, whether or not the store would answer, and leaves the table untouched. -/
theorem create_store_failure (pc pr k v : String) (exc : Bool) (s : Server)
    (hs : Reachable s.cache) (hk0 : k ≠ "") (hv0 : v ≠ "")
    (hc : endpointOf pc = "/create") (hck : param (parse_query_string pc) "key" = k)
    (hcv : param (parse_query_string pc) "value" = v)
    (hr : endpointOf pr = "/read") (hrk : param (parse_query_string pr) "key" = k) :
    ∃ s1 s2,
      handle_connection pc true s = some ({ body := "DB error\n", status := 500 }, s1) ∧
      s1.table = s.table ∧ s1.cache.lookup k = some v ∧
      handle_connection pr exc s1 =
        some ({ body := "Cache hit: " ++ v ++ "\n", status := 200 }, s2) ∧
      s2.table = s.table ∧ s2.cache.lookup k = some v := by
  have hwf := hs.wf
  obtain ⟨c1, hput, hwf1, hlook1⟩ := put_total hwf k v
  obtain ⟨c2, hget, _, hlook2⟩ := get_of_lookup hwf1 "" hlook1
  refine ⟨⟨c1, s.table⟩, ⟨c2, s.table⟩, ?_, rfl, hlook1, ?_, rfl, ?_⟩
  · rw [handle_create true s hc hck hcv hk0 hv0]
    simp [hput, Storage.put]
  · rw [handle_read exc _ hr hrk hk0]
    simp [hget]
  · show c2.lookup k = some v
    rw [hlook2, hlook1]

theorem create_store_failure_witness :
    ∃ s1 s2,
      handle_connection "/create?key=k1&value=v1" true ⟨LRUCache.init 2, []⟩ =
        some ({ body := "DB error\n", status := 500 }, s1) ∧
      s1.table = [] ∧ s1.cache.lookup "k1" = some "v1" ∧
      handle_connection "/read?key=k1" true s1 =
        some ({ body := "Cache hit: " ++ "v1" ++ "\n", status := 200 }, s2) ∧
      s2.table = [] ∧ s2.cache.lookup "k1" = some "v1" :=
  create_store_failure "/create?key=k1&value=v1" "/read?key=k1" "k1" "v1" true
    ⟨LRUCache.init 2, []⟩ ⟨2, [], by decide, rfl⟩ (by decide) (by decide) (by decide)
    (by decide) (by decide) (by decide) (by decide)

/-- C12, what the code does: for every non-empty key `k` held neither by the cache nor by
the table, a Delete(k) during which no exception is raised is answered with status 200
and the body `Deleted key=k`, not with 404: `Storage::remove` returns `true` for a
`DELETE` that matches no row.  Cache and table are unchanged. -/
theorem delete_absent_key (pd k : String) (s : Server) (hk0 : k ≠ "")
    (hd : endpointOf pd = "/delete") (hdk : param (parse_query_string pd) "key" = k)
    (hcache : s.cache.lookup k = none) (htable : mfind s.table k = none) :
    handle_connection pd false s =
      some ({ body := "Deleted key=" ++ k ++ "\n", status := 200 }, s) := by
  rw [handle_delete false _ hd hdk hk0]
  have hrem := remove_miss ((lookup_eq_none_iff _ _).1 hcache)
  simp [hrem, Storage.remove, merase_of_none _ _ htable]

theorem delete_absent_key_witness :
    handle_connection "/delete?key=k1" false ⟨LRUCache.init 1000, []⟩ =
      some ({ body := "Deleted key=" ++ "k1" ++ "\n", status := 200 }, ⟨LRUCache.init 1000, []⟩) :=
  delete_absent_key "/delete?key=k1" "k1" ⟨LRUCache.init 1000, []⟩
    (by decide) (by decide) (by decide) (by decide) (by decide)

/-- C13, as stated, fails: a Read on a cache miss whose `Storage::get` raises an
exception, and a Delete whose `Storage::remove` raises an exception, are answered with
status 404, not 500. -/
theorem store_failure_status_counterexample :
    (handle_connection "/read?key=k1" true ⟨LRUCache.init 2, [("k1", "v1")]⟩).map
        (fun r => r.1.status) = some 404 ∧
    (handle_connection "/delete?key=k1" true ⟨LRUCache.init 2, [("k1", "v1")]⟩).map
        (fun r => r.1.status) = some 404 := by
  constructor <;> decide

/-- C13, amended: for requests with valid non-empty parameters whose datastore operation
fails, a Create is answered with status 500 (`DB error`), whatever the cache holds, and
a Read on a cache miss is answered with status 404 (`Key not found`), as a Read of a key
the store does not hold, and changes nothing. -/
theorem store_failure_status (pc pr k v : String) (s : Server)
    (hs : Reachable s.cache) (hk0 : k ≠ "") (hv0 : v ≠ "")
    (hc : endpointOf pc = "/create") (hck : param (parse_query_string pc) "key" = k)
    (hcv : param (parse_query_string pc) "value" = v)
    (hr : endpointOf pr = "/read") (hrk : param (parse_query_string pr) "key" = k) :
    (∃ s1, handle_connection pc true s = some ({ body := "DB error\n", status := 500 }, s1)) ∧
    (s.cache.lookup k = none →
      handle_connection pr true s = some ({ body := "Key not found\n", status := 404 }, s)) := by
  have hwf := hs.wf
  refine ⟨?_, ?_⟩
  · obtain ⟨c1, hput, _, _⟩ := put_total hwf k v
    refine ⟨⟨c1, s.table⟩, ?_⟩
    rw [handle_create true s hc hck hcv hk0 hv0]
    simp [hput, Storage.put]
  · intro hmiss
    rw [handle_read true s hr hrk hk0]
    simp [get_miss "" ((lookup_eq_none_iff _ _).1 hmiss), Storage.get]

theorem store_failure_status_witness :
    (∃ s1, handle_connection "/create?key=k1&value=v2" true ⟨LRUCache.init 2, [("k1", "v1")]⟩ =
        some ({ body := "DB error\n", status := 500 }, s1)) ∧
    handle_connection "/read?key=k1" true ⟨LRUCache.init 2, [("k1", "v1")]⟩ =
      some ({ body := "Key not found\n", status := 404 }, ⟨LRUCache.init 2, [("k1", "v1")]⟩) :=
  ⟨(store_failure_status "/create?key=k1&value=v2" "/read?key=k1" "k1" "v2"
      ⟨LRUCache.init 2, [("k1", "v1")]⟩ ⟨2, [], by decide, rfl⟩ (by decide) (by decide)
      (by decide) (by decide) (by decide) (by decide) (by decide)).1,
    (store_failure_status "/create?key=k1&value=v2" "/read?key=k1" "k1" "v2"
      ⟨LRUCache.init 2, [("k1", "v1")]⟩ ⟨2, [], by decide, rfl⟩ (by decide) (by decide)
      (by decide) (by decide) (by decide) (by decide) (by decide)).2 (by decide)⟩

/-- C14: for every non-empty key `k` not held by the cache: if the table holds `k` with
`v` and the store answers, Read(k) is answered with the cache-miss-resolved-via-store
body carrying `v` and afterwards the cache holds `k` with `v`, so that the next Read(k)
is answered with the cache-hit body carrying `v` even when the store fails; if the table
does not hold `k`, Read(k) is answered with status 404 and cache and table are left as
they were. -/
theorem read_through (pr k : String) (exc : Bool) (s : Server)
    (hs : Reachable s.cache) (hk0 : k ≠ "")
    (hr : endpointOf pr = "/read") (hrk : param (parse_query_string pr) "key" = k)
    (hmiss : s.cache.lookup k = none) :
    (∀ v, mfind s.table k = some v →
      ∃ s1 s2,
        handle_connection pr false s =
          some ({ body := "Cache miss -> DB: " ++ v ++ "\n", status := 200 }, s1) ∧
        s1.cache.lookup k = some v ∧ s1.table = s.table ∧
        handle_connection pr exc s1 =
          some ({ body := "Cache hit: " ++ v ++ "\n", status := 200 }, s2) ∧
        s2.cache.lookup k = some v ∧ s2.table = s.table) ∧
    (mfind s.table k = none →
      handle_connection pr false s = some ({ body := "Key not found\n", status := 404 }, s)) := by
  have hwf := hs.wf
  have hgm := get_miss (c := s.cache) "" ((lookup_eq_none_iff _ _).1 hmiss)
  constructor
  · intro v hv
    obtain ⟨c1, hput, hwf1, hlook1⟩ := put_total hwf k v
    obtain ⟨c2, hget, _, hlook2⟩ := get_of_lookup hwf1 "" hlook1
    refine ⟨⟨c1, s.table⟩, ⟨c2, s.table⟩, ?_, hlook1, rfl, ?_, ?_, rfl⟩
    · rw [handle_read false s hr hrk hk0]
      simp [hgm, Storage.get, hv, hput]
    · rw [handle_read exc _ hr hrk hk0]
      simp [hget]
    · show c2.lookup k = some v
      rw [hlook2, hlook1]
  · intro hnone
    rw [handle_read false s hr hrk hk0]
    simp [hgm, Storage.get, hnone]

theorem read_through_witness :
    (∃ s1 s2,
      handle_connection "/read?key=k1" false ⟨LRUCache.init 2, [("k1", "v1")]⟩ =
        some ({ body := "Cache miss -> DB: " ++ "v1" ++ "\n", status := 200 }, s1) ∧
      s1.cache.lookup "k1" = some "v1" ∧ s1.table = [("k1", "v1")] ∧
      handle_connection "/read?key=k1" true s1 =
        some ({ body := "Cache hit: " ++ "v1" ++ "\n", status := 200 }, s2) ∧
      s2.cache.lookup "k1" = some "v1" ∧ s2.table = [("k1", "v1")]) ∧
    handle_connection "/read?key=k2" false ⟨LRUCache.init 2, [("k1", "v1")]⟩ =
      some ({ body := "Key not found\n", status := 404 }, ⟨LRUCache.init 2, [("k1", "v1")]⟩) :=
  ⟨(read_through "/read?key=k1" "k1" true ⟨LRUCache.init 2, [("k1", "v1")]⟩
      ⟨2, [], by decide, rfl⟩ (by decide) (by decide) (by decide) (by decide)).1 "v1" (by decide),
    (read_through "/read?key=k2" "k2" true ⟨LRUCache.init 2, [("k1", "v1")]⟩
      ⟨2, [], by decide, rfl⟩ (by decide) (by decide) (by decide) (by decide)).2 (by decide)⟩

/-! ## The compute endpoint -/

theorem fibLoop_fib (n i : Nat) (h : Nat.fib (i + n + 1) < 2 ^ 63) :
    fibLoop n (Nat.fib i : Int) (Nat.fib (i + 1) : Int) =
      some ((Nat.fib (i + n) : Int), (Nat.fib (i + n + 1) : Int)) := by
  induction n generalizing i with
  | zero => simp [fibLoop]
  | succ n ih =>
    have hle : Nat.fib (i + 2) ≤ Nat.fib (i + (n + 1) + 1) :=
      Nat.fib_mono (by omega)
    have hadd : (Nat.fib i : Int) + (Nat.fib (i + 1) : Int) = (Nat.fib (i + 1 + 1) : Int) := by
      rw [Nat.fib_add_two]
      push_cast
      ring
    have hlt : ((Nat.fib (i + 1 + 1) : Nat) : Int) < 2 ^ 63 := by
      have : Nat.fib (i + 1 + 1) < 2 ^ 63 := lt_of_le_of_lt hle h
      exact_mod_cast this
    have hge : -(2 : Int) ^ 63 ≤ ((Nat.fib (i + 1 + 1) : Nat) : Int) := by
      have : (0 : Int) ≤ ((Nat.fib (i + 1 + 1) : Nat) : Int) := Int.natCast_nonneg _
      omega
    have hih := ih (i + 1) (by
      have : i + 1 + n + 1 = i + (n + 1) + 1 := by omega
      rw [this]
      exact h)
    simp only [fibLoop, hadd]
    rw [if_neg (by omega)]
    rw [hih]
    have e1 : i + 1 + n = i + (n + 1) := by omega
    rw [e1]

/-- C19: every request for the compute endpoint is answered with status 200 and the body
`fib(40)=102334155` followed by a line feed, whatever the cache and the table hold and
whether or not the store would fail, and leaves cache and table as they were; the loop
runs without overflowing a signed 64-bit integer and ends with the 39th and the 40th
Fibonacci number (F(0) = 0, F(1) = 1), the latter being 102334155. -/
theorem compute_fib40 (path : String) (exc : Bool) (s : Server)
    (he : endpointOf path = "/compute") :
    handle_connection path exc s =
        some ({ body := "fib(40)=102334155\n", status := 200 }, s) ∧
      fibLoop 39 0 1 = some ((Nat.fib 39 : Int), (Nat.fib 40 : Int)) ∧
      Nat.fib 0 = 0 ∧ Nat.fib 1 = 1 ∧ (∀ n, Nat.fib (n + 2) = Nat.fib n + Nat.fib (n + 1)) ∧
      Nat.fib 40 = 102334155 ∧ (102334155 : Int) < 2 ^ 63 := by
  have h39 : Nat.fib 39 = 63245986 := by norm_num
  have h40 : Nat.fib 40 = 102334155 := by norm_num
  have hloop : fibLoop 39 0 1 = some (63245986, 102334155) := by
    have h := fibLoop_fib 39 0 (by norm_num)
    simp only [Nat.zero_add, Nat.fib_zero, Nat.fib_one, h39, h40] at h
    exact_mod_cast h
  have h1 : ¬ ("/compute" = "/create") := by decide
  have h2 : ¬ ("/compute" = "/read") := by decide
  have h3 : ¬ ("/compute" = "/delete") := by decide
  have hbody : "fib(40)=" ++ toString (102334155 : Int) ++ "\n" = "fib(40)=102334155\n" := by
    decide
  refine ⟨?_, ?_, Nat.fib_zero, Nat.fib_one, fun n => Nat.fib_add_two, h40, by decide⟩
  · simp only [handle_connection, he, h1, h2, h3, if_false, if_true, hloop, hbody]
  · rw [hloop, h39, h40]
    rfl

theorem compute_fib40_witness :
    handle_connection "/compute?n=5" true ⟨LRUCache.init 2, [("k1", "v1")]⟩ =
        some ({ body := "fib(40)=102334155\n", status := 200 }, ⟨LRUCache.init 2, [("k1", "v1")]⟩) ∧
      fibLoop 39 0 1 = some ((Nat.fib 39 : Int), (Nat.fib 40 : Int)) ∧
      Nat.fib 0 = 0 ∧ Nat.fib 1 = 1 ∧ (∀ n, Nat.fib (n + 2) = Nat.fib n + Nat.fib (n + 1)) ∧
      Nat.fib 40 = 102334155 ∧ (102334155 : Int) < 2 ^ 63 :=
  compute_fib40 "/compute?n=5" true ⟨LRUCache.init 2, [("k1", "v1")]⟩ (by decide)

/-! ## Eviction and `touch` are defined -/

/-- C20: in every state reachable from the empty cache (capacity at least one) by put,
get, remove and clear: when `put` takes its eviction branch (key absent, index size at
least the capacity), `order` is not empty, so `back()` and `pop_back()` are defined, and
the key of its tail is in the index, so `map.erase(last)` erases exactly one entry; and
at both call sites of `touch`, in `put` after the value was overwritten and in `get`,
the position passed designates a node of `order` whose key is in the index, `touch`
completes, and the index has as many entries after the call as before. -/
theorem lru_eviction_and_touch_defined (c : LRUCache) (h : Reachable c) :
    (∀ k, mfind c.map k = none → c.capacity ≤ c.map.length →
      ∃ last e, c.order ≠ [] ∧ c.order.getLast? = some last ∧
        mfind c.map last.key = some e ∧
        (merase c.map last.key).length + 1 = c.map.length) ∧
    (∀ k e v, mfind c.map k = some e →
      ∃ n e' c', deref c.order e.second = some n ∧
        mfind (mset c.map k { e with first := v }) n.key = some e' ∧
        LRUCache.touch { c with map := mset c.map k { e with first := v } } e.second = some c' ∧
        c'.map.length = c.map.length) ∧
    (∀ k e, mfind c.map k = some e →
      ∃ n e' c', deref c.order e.second = some n ∧ mfind c.map n.key = some e' ∧
        c.touch e.second = some c' ∧ c'.map.length = c.map.length) := by
  have hwf := h.wf
  refine ⟨?_, ?_, ?_⟩
  · intro k hf hge
    obtain ⟨c', victim, _, _, _, _, hlast, _, _, _⟩ := put_miss_full hwf "" hf hge
    simp only [LRUCache.keys, List.getLast?_map] at hlast
    cases hl : c.order.getLast? with
    | none => simp [hl] at hlast
    | some last =>
      have hmem : last ∈ c.order := List.mem_of_mem_getLast? hl
      obtain ⟨p, hp⟩ := (mem_keys_iff_idOf c.order last.key).1 (List.mem_map_of_mem Node.key hmem)
      obtain ⟨e, he, _⟩ := hwf.mfind_of_idOf hp
      exact ⟨last, e, List.ne_nil_of_mem hmem, rfl, he, length_merase c.map last.key e hwf.mapNodup he⟩
  · intro k e v hf
    have h1 := WF_setValue hwf v hf
    have hf1 : mfind (mset c.map k { e with first := v }) k = some { e with first := v } := by
      simp [mfind_mset]
    have hd := deref_of_idOf hwf.idsNodup (hwf.idOf_of_mfind hf)
    refine ⟨_, _, _, hd, hf1, touch_eq (e := { e with first := v }) h1 hf1, ?_⟩
    simp [length_mset, hf1, hf]
  · intro k e hf
    have hd := deref_of_idOf hwf.idsNodup (hwf.idOf_of_mfind hf)
    refine ⟨_, _, _, hd, hf, touch_eq hwf hf, ?_⟩
    simp [length_mset, hf]

theorem lru_eviction_and_touch_defined_witness :
    ∃ c, run (LRUCache.init 2) [Op.put "a" "1", Op.put "b" "2"] = some c ∧
      (∀ k, mfind c.map k = none → c.capacity ≤ c.map.length →
        ∃ last e, c.order ≠ [] ∧ c.order.getLast? = some last ∧
          mfind c.map last.key = some e ∧
          (merase c.map last.key).length + 1 = c.map.length) ∧
      (∀ k e v, mfind c.map k = some e →
        ∃ n e' c', deref c.order e.second = some n ∧
          mfind (mset c.map k { e with first := v }) n.key = some e' ∧
          LRUCache.touch { c with map := mset c.map k { e with first := v } } e.second = some c' ∧
          c'.map.length = c.map.length) ∧
      (∀ k e, mfind c.map k = some e →
        ∃ n e' c', deref c.order e.second = some n ∧ mfind c.map n.key = some e' ∧
          c.touch e.second = some c' ∧ c'.map.length = c.map.length) :=
  ⟨_, rfl, lru_eviction_and_touch_defined _ ⟨2, [Op.put "a" "1", Op.put "b" "2"], by decide, rfl⟩⟩

/-! ## The worker pool -/

theorem set_split {l : List Worker} {i : Nat} {w : Worker} (h : l[i]? = some w) (w' : Worker) :
    ∃ l1 l2, l = l1 ++ w :: l2 ∧ l.set i w' = l1 ++ w' :: l2 := by
  induction l generalizing i with
  | nil => simp at h
  | cons x l ih =>
    cases i with
    | zero =>
      simp only [List.getElem?_cons_zero, Option.some.injEq] at h
      subst h
      exact ⟨[], l, rfl, rfl⟩
    | succ i =>
      simp only [List.getElem?_cons_succ] at h
      obtain ⟨l1, l2, h1, h2⟩ := ih h
      exact ⟨x :: l1, l2, by rw [h1]; rfl, by simp [h2]⟩

theorem work_cases {p p' : ThreadPool} {i : Nat} (h : p.work i = some p') :
    (∃ t, p.workers[i]? = some (Worker.running t) ∧
      p' = { p with workers := p.workers.set i Worker.waiting, completed := p.completed ++ [t] }) ∨
    (p.workers[i]? = some Worker.waiting ∧ p.stop = true ∧ p.tasks = [] ∧
      p' = { p with workers := p.workers.set i Worker.exited }) ∨
    (∃ t q, p.workers[i]? = some Worker.waiting ∧ p.tasks = t :: q ∧
      p' = { p with workers := p.workers.set i (Worker.running t), tasks := q }) := by
  unfold ThreadPool.work at h
  cases hw : p.workers[i]? with
  | none => simp [hw] at h
  | some w =>
    cases w with
    | exited => simp [hw] at h
    | running t =>
      simp only [hw, Option.some.injEq] at h
      exact Or.inl ⟨t, rfl, h.symm⟩
    | waiting =>
      simp only [hw] at h
      cases ht : p.tasks with
      | nil =>
        cases hs : p.stop with
        | false => simp [ht, hs] at h
        | true =>
          simp only [ht, hs, List.isEmpty_nil, Bool.not_true, Bool.or_false, if_true,
            Bool.and_self, Option.some.injEq] at h
          exact Or.inr (Or.inl ⟨rfl, rfl, rfl, h.symm⟩)
      | cons t q =>
        simp only [ht, List.isEmpty_cons, Bool.not_false, Bool.or_true, if_true, Bool.and_false,
          Bool.false_eq_true, if_false, Option.some.injEq] at h
        exact Or.inr (Or.inr ⟨t, q, rfl, rfl, h.symm⟩)

theorem perm_of_count {l1 l2 : List Func} (h : ∀ a, l1.count a = l2.count a) : l1.Perm l2 :=
  List.perm_iff_count.2 h

theorem work_effect {p p' : ThreadPool} {i : Nat} (h : p.work i = some p') :
    p'.pending.Perm p.pending ∧ p'.stop = p.stop ∧ p'.workers.length = p.workers.length ∧
      p'.budget + 1 ≤ p.budget ∧
      ((∀ w, w ∈ p.workers → w ≠ Worker.exited) → p.stop = false →
        ∀ w, w ∈ p'.workers → w ≠ Worker.exited) ∧
      (((∃ w, w ∈ p.workers ∧ w = Worker.exited) → p.tasks = []) →
        (∃ w, w ∈ p'.workers ∧ w = Worker.exited) → p'.tasks = []) := by
  rcases work_cases h with ⟨t, hw, rfl⟩ | ⟨hw, hs, ht, rfl⟩ | ⟨t, q, hw, ht, rfl⟩
  · obtain ⟨l1, l2, h1, h2⟩ := set_split hw Worker.waiting
    refine ⟨?_, rfl, by simp, ?_, ?_, ?_⟩
    · apply perm_of_count
      intro a
      simp only [ThreadPool.pending, ThreadPool.runningTasks, h2]
      rw [h1]
      simp only [List.filterMap_append, List.filterMap_cons, List.count_append, List.count_cons,
        List.count_nil]
      omega
    · simp only [ThreadPool.budget, h2]
      rw [h1]
      simp only [List.map_append, List.map_cons, List.sum_append, List.sum_cons]
      omega
    · intro hall _ w hmem
      simp only [h2, List.mem_append, List.mem_cons] at hmem
      rcases hmem with hmem | rfl | hmem
      · exact hall w (by rw [h1]; simp [hmem])
      · simp
      · exact hall w (by rw [h1]; simp [hmem])
    · intro himp ⟨w, hmem, hw'⟩
      apply himp
      simp only [h2, List.mem_append, List.mem_cons] at hmem
      subst hw'
      rcases hmem with hmem | hmem | hmem
      · exact ⟨_, by rw [h1]; simp [hmem], rfl⟩
      · cases hmem
      · exact ⟨_, by rw [h1]; simp [hmem], rfl⟩
  · obtain ⟨l1, l2, h1, h2⟩ := set_split hw Worker.exited
    refine ⟨?_, rfl, by simp, ?_, ?_, ?_⟩
    · apply perm_of_count
      intro a
      simp only [ThreadPool.pending, ThreadPool.runningTasks, h2]
      rw [h1]
      simp only [List.filterMap_append, List.filterMap_cons, List.count_append]
    · simp only [ThreadPool.budget, h2]
      rw [h1]
      simp only [List.map_append, List.map_cons, List.sum_append, List.sum_cons]
      omega
    · intro _ hstop
      rw [hs] at hstop
      cases hstop
    · intro _ _
      exact ht
  · obtain ⟨l1, l2, h1, h2⟩ := set_split hw (Worker.running t)
    refine ⟨?_, rfl, by simp, ?_, ?_, ?_⟩
    · apply perm_of_count
      intro a
      simp only [ThreadPool.pending, ThreadPool.runningTasks, h2, ht]
      rw [h1]
      simp only [List.filterMap_append, List.filterMap_cons, List.count_append, List.count_cons,
        List.count_nil]
      omega
    · simp only [ThreadPool.budget, h2, ht]
      rw [h1]
      simp only [List.map_append, List.map_cons, List.sum_append, List.sum_cons, List.length_cons]
      omega
    · intro hall _ w hmem
      simp only [h2, List.mem_append, List.mem_cons] at hmem
      rcases hmem with hmem | rfl | hmem
      · exact hall w (by rw [h1]; simp [hmem])
      · simp
      · exact hall w (by rw [h1]; simp [hmem])
    · intro himp ⟨w, hmem, hw'⟩
      have : p.tasks = [] := by
        apply himp
        simp only [h2, List.mem_append, List.mem_cons] at hmem
        subst hw'
        rcases hmem with hmem | hmem | hmem
        · exact ⟨_, by rw [h1]; simp [hmem], rfl⟩
        · cases hmem
        · exact ⟨_, by rw [h1]; simp [hmem], rfl⟩
      rw [this] at ht
      cases ht

theorem pending_init (n : Nat) : (ThreadPool.init n).pending = [] := by
  have : ∀ m : Nat, List.filterMap (fun w : Worker =>
      match w with
      | Worker.running task => some task
      | _ => none) (List.replicate m Worker.waiting) = [] := by
    intro m
    induction m with
    | zero => rfl
    | succ m ih => simp [List.replicate_succ, ih]
  simp [ThreadPool.pending, ThreadPool.runningTasks, ThreadPool.init, this]

theorem exec_before_stop (pre : List Event) :
    ∀ p0 p : ThreadPool, (∀ e, e ∈ pre → e ≠ Event.shutdown) → p0.stop = false →
      (∀ w, w ∈ p0.workers → w ≠ Worker.exited) → execAll p0 pre = some p →
      p.stop = false ∧ (∀ w, w ∈ p.workers → w ≠ Worker.exited) ∧
        p.workers.length = p0.workers.length ∧
        p.pending.Perm (p0.pending ++ enqueuedBy pre) := by
  induction pre with
  | nil =>
    intro p0 p _ hs hw hrun
    simp only [execAll, Option.some.injEq] at hrun
    subst hrun
    exact ⟨hs, hw, rfl, by simp [enqueuedBy]⟩
  | cons e es ih =>
    intro p0 p hne hs hw hrun
    have hne' : ∀ e', e' ∈ es → e' ≠ Event.shutdown := fun e' he' =>
      hne e' (List.mem_cons_of_mem _ he')
    cases e with
    | shutdown => exact absurd rfl (hne _ (List.mem_cons_self _ _))
    | enqueue f =>
      simp only [execAll, exec, Option.some_bind] at hrun
      obtain ⟨h1, h2, h3, h4⟩ := ih (p0.enqueue f) p hne' hs hw hrun
      refine ⟨h1, h2, h3, ?_⟩
      have : (p0.enqueue f).pending ++ enqueuedBy es =
          p0.pending ++ enqueuedBy (Event.enqueue f :: es) := by
        simp [ThreadPool.pending, ThreadPool.enqueue, ThreadPool.runningTasks, enqueuedBy]
      rw [← this]
      exact h4
    | work i =>
      simp only [execAll, exec] at hrun
      cases hstep : p0.work i with
      | none => simp [hstep] at hrun
      | some p1 =>
        simp only [hstep, Option.some_bind] at hrun
        obtain ⟨hperm, hstop, hlen, _, hex, _⟩ := work_effect hstep
        obtain ⟨h1, h2, h3, h4⟩ := ih p1 p hne' (hstop.trans hs) (hex hw hs) hrun
        refine ⟨h1, h2, h3.trans hlen, ?_⟩
        have : enqueuedBy (Event.work i :: es) = enqueuedBy es := by simp [enqueuedBy]
        rw [this]
        exact h4.trans (hperm.append_right _)

theorem exec_after_stop (post : List Event) :
    ∀ p0 p : ThreadPool, (∀ e, e ∈ post → e.isWork = true) →
      ((∃ w, w ∈ p0.workers ∧ w = Worker.exited) → p0.tasks = []) →
      execAll p0 post = some p →
      p.stop = p0.stop ∧ ((∃ w, w ∈ p.workers ∧ w = Worker.exited) → p.tasks = []) ∧
        p.workers.length = p0.workers.length ∧ p.pending.Perm p0.pending ∧
        post.length + p.budget ≤ p0.budget := by
  induction post with
  | nil =>
    intro p0 p _ hex hrun
    simp only [execAll, Option.some.injEq] at hrun
    subst hrun
    exact ⟨rfl, hex, rfl, List.Perm.refl _, by simp⟩
  | cons e es ih =>
    intro p0 p hwork hex hrun
    have hwork' : ∀ e', e' ∈ es → e'.isWork = true := fun e' he' =>
      hwork e' (List.mem_cons_of_mem _ he')
    have he := hwork e (List.mem_cons_self _ _)
    cases e with
    | shutdown => simp [Event.isWork] at he
    | enqueue f => simp [Event.isWork] at he
    | work i =>
      simp only [execAll, exec] at hrun
      cases hstep : p0.work i with
      | none => simp [hstep] at hrun
      | some p1 =>
        simp only [hstep, Option.some_bind] at hrun
        obtain ⟨hperm, hstop, hlen, hbud, _, hex1⟩ := work_effect hstep
        obtain ⟨h1, h2, h3, h4, h5⟩ := ih p1 p hwork' (hex1 hex) hrun
        refine ⟨h1.trans hstop, h2, h3.trans hlen, h4.trans hperm, ?_⟩
        simp only [List.length_cons]
        omega

theorem joined_iff (p : ThreadPool) : p.joined = true ↔ ∀ w, w ∈ p.workers → w = Worker.exited := by
  simp [ThreadPool.joined]

theorem runningTasks_of_joined {p : ThreadPool} (h : p.joined = true) : p.runningTasks = [] := by
  rw [joined_iff] at h
  unfold ThreadPool.runningTasks
  rw [List.filterMap_eq_nil_iff]
  intro w hw
  rw [h w hw]

/-- C17: for a pool with at least one worker, as the server builds it, for every number
of tasks and every interleaving of the steps of the workers with the calls of `enqueue`
and, after them, the destructor: when the join loop of the destructor has ended, the
tasks executed to completion are exactly the tasks enqueued, each once, and the queue is
empty.  A worker ends only in a step taken while it waits, the stop flag is set and the
queue is empty.  Once the stop flag is set, some worker can take a step as long as the
join loop has not ended, and a run of worker steps is no longer than the budget of its
first state, so the join loop ends. -/
theorem pool_drains_on_shutdown :
    (∀ (n : Nat) (pre post : List Event) (p : ThreadPool),
      1 ≤ n → (∀ e, e ∈ pre → e ≠ Event.shutdown) → (∀ e, e ∈ post → e.isWork = true) →
      execAll (ThreadPool.init n) (pre ++ Event.shutdown :: post) = some p →
      p.joined = true →
      p.completed.Perm (enqueuedBy pre) ∧ p.tasks = [] ∧ p.runningTasks = []) ∧
    (∀ (p p' : ThreadPool) (i : Nat), p.work i = some p' →
      p'.workers[i]? = some Worker.exited →
      p.workers[i]? = some Worker.waiting ∧ p.stop = true ∧ p.tasks = []) ∧
    (∀ p : ThreadPool, p.stop = true → p.joined = false → ∃ i, (p.work i).isSome = true) ∧
    (∀ (p p' : ThreadPool) (post : List Event), (∀ e, e ∈ post → e.isWork = true) →
      execAll p post = some p' → post.length + p'.budget ≤ p.budget) := by
  refine ⟨?_, ?_, ?_, ?_⟩
  · intro n pre post p hn hpre hpost hrun hjoin
    have hsplit : ∀ (es1 es2 : List Event) (q : ThreadPool), execAll q (es1 ++ es2) =
        (execAll q es1).bind fun q' => execAll q' es2 := by
      intro es1
      induction es1 with
      | nil => intro es2 q; rfl
      | cons e es ih =>
        intro es2 q
        simp only [List.cons_append, execAll]
        cases exec q e with
        | none => rfl
        | some q' => simp [ih]
    rw [hsplit] at hrun
    cases h1 : execAll (ThreadPool.init n) pre with
    | none => simp [h1] at hrun
    | some p1 =>
      simp only [h1, Option.some_bind, execAll, exec] at hrun
      have hinit : ∀ w, w ∈ (ThreadPool.init n).workers → w ≠ Worker.exited := by
        intro w hw
        simp only [ThreadPool.init, List.mem_replicate] at hw
        rw [hw.2]
        simp
      obtain ⟨hs1, hw1, hlen1, hperm1⟩ := exec_before_stop pre _ p1 hpre rfl hinit h1
      have hex1 : (∃ w, w ∈ p1.shutdown.workers ∧ w = Worker.exited) → p1.shutdown.tasks = [] := by
        rintro ⟨w, hw, rfl⟩
        exact absurd rfl (hw1 _ hw)
      obtain ⟨_, hex, hlen, hperm, _⟩ := exec_after_stop post _ p hpost hex1 hrun
      have hall := (joined_iff p).1 hjoin
      have hlenp : p.workers.length = n := by
        rw [hlen]
        show p1.workers.length = n
        rw [hlen1]
        simp [ThreadPool.init]
      have hne : p.workers ≠ [] := by
        intro h0
        rw [h0] at hlenp
        simp at hlenp
        omega
      obtain ⟨w, l, hwl⟩ := List.exists_cons_of_ne_nil hne
      have hwmem : w ∈ p.workers := by rw [hwl]; simp
      have htasks : p.tasks = [] := hex ⟨w, hwmem, hall w hwmem⟩
      have hrunning := runningTasks_of_joined hjoin
      refine ⟨?_, htasks, hrunning⟩
      have hpend : p.pending = p.completed := by
        simp [ThreadPool.pending, htasks, hrunning]
      rw [← hpend]
      have hp1 : p1.shutdown.pending = p1.pending := rfl
      rw [hp1] at hperm
      have := hperm.trans hperm1
      simpa [pending_init] using this
  · intro p p' i hstep hexit
    rcases work_cases hstep with ⟨t, hw, rfl⟩ | ⟨hw, hs, ht, rfl⟩ | ⟨t, q, hw, ht, rfl⟩
    · obtain ⟨l1, l2, h1, h2⟩ := set_split hw Worker.waiting
      have hlt : i < p.workers.length := by
        rcases Nat.lt_or_ge i p.workers.length with h | h
        · exact h
        · rw [List.getElem?_eq_none h] at hw
          cases hw
      simp [List.getElem?_set, hlt] at hexit
    · exact ⟨hw, hs, ht⟩
    · have hlt : i < p.workers.length := by
        rcases Nat.lt_or_ge i p.workers.length with h | h
        · exact h
        · rw [List.getElem?_eq_none h] at hw
          cases hw
      simp [List.getElem?_set, hlt] at hexit
  · intro p hs hj
    have : ∃ w, w ∈ p.workers ∧ w ≠ Worker.exited := by
      by_contra hcon
      have hall : ∀ w, w ∈ p.workers → w = Worker.exited := by
        intro w hw
        by_contra hne
        exact hcon ⟨w, hw, hne⟩
      rw [(joined_iff p).2 hall] at hj
      cases hj
    obtain ⟨w, hw, hne⟩ := this
    obtain ⟨i, hi⟩ := List.getElem?_of_mem hw
    refine ⟨i, ?_⟩
    cases w with
    | exited => exact absurd rfl hne
    | running t => simp [ThreadPool.work, hi]
    | waiting =>
      cases ht : p.tasks with
      | nil => simp [ThreadPool.work, hi, hs, ht]
      | cons t q => simp [ThreadPool.work, hi, hs, ht]
  · intro p p' post hpost hrun
    -- the bound needs no assumption on exited workers
    have : ∀ (es : List Event) (q q' : ThreadPool), (∀ e, e ∈ es → e.isWork = true) →
        execAll q es = some q' → es.length + q'.budget ≤ q.budget := by
      intro es
      induction es with
      | nil =>
        intro q q' _ h
        simp only [execAll, Option.some.injEq] at h
        subst h
        simp
      | cons e es ih =>
        intro q q' hw h
        have he := hw e (List.mem_cons_self _ _)
        cases e with
        | shutdown => simp [Event.isWork] at he
        | enqueue f => simp [Event.isWork] at he
        | work i =>
          simp only [execAll, exec] at h
          cases hstep : q.work i with
          | none => simp [hstep] at h
          | some q1 =>
            simp only [hstep, Option.some_bind] at h
            obtain ⟨_, _, _, hbud, _, _⟩ := work_effect hstep
            have := ih q1 q' (fun e' he' => hw e' (List.mem_cons_of_mem _ he')) h
            simp only [List.length_cons]
            omega
    exact this post p p' hpost hrun

theorem pool_drains_on_shutdown_witness :
    ∃ p, execAll (ThreadPool.init 2)
        ([Event.enqueue 1, Event.work 0, Event.enqueue 2, Event.enqueue 3] ++
          Event.shutdown ::
            [Event.work 1, Event.work 0, Event.work 1, Event.work 0, Event.work 1, Event.work 0,
              Event.work 0]) = some p ∧
      p.joined = true ∧ p.completed.Perm [1, 2, 3] ∧ p.tasks = [] ∧ p.runningTasks = [] := by
  refine ⟨_, rfl, by decide, ?_⟩
  exact pool_drains_on_shutdown.1 2 [Event.enqueue 1, Event.work 0, Event.enqueue 2, Event.enqueue 3]
    [Event.work 1, Event.work 0, Event.work 1, Event.work 0, Event.work 1, Event.work 0,
      Event.work 0] _ (by decide) (by decide) (by decide) rfl (by decide)

/-- C18, as stated, fails: in a pool whose stop flag is set, `enqueue` changes the queue;
the task is appended to it. -/
theorem enqueue_after_stop_counterexample :
    ((ThreadPool.init 1).shutdown).stop = true ∧
    (((ThreadPool.init 1).shutdown).enqueue 7).tasks ≠ ((ThreadPool.init 1).shutdown).tasks ∧
    (((ThreadPool.init 1).shutdown).enqueue 7).tasks = [7] := by
  decide

/-- C18, amended: `enqueue` does not consult the stop flag: in every pool state, with the
stop flag set or not, `enqueue(t)` appends `t` at the back of the queue and changes
nothing else. -/
theorem enqueue_appends (p : ThreadPool) (t : Func) :
    (p.enqueue t).tasks = p.tasks ++ [t] ∧ (p.enqueue t).stop = p.stop ∧
      (p.enqueue t).workers = p.workers ∧ (p.enqueue t).completed = p.completed :=
  ⟨rfl, rfl, rfl, rfl⟩

/-! ## Query strings -/

theorem afterFirst_append (d : Char) (pre q : List Char) (h : d ∉ pre) :
    afterFirst d (pre ++ d :: q) = some q := by
  induction pre with
  | nil => simp [afterFirst]
  | cons c pre ih =>
    have hc : c ≠ d := fun hcd => h (by simp [hcd])
    have hpre : d ∉ pre := fun hm => h (List.mem_cons_of_mem _ hm)
    simp [afterFirst, hc, ih hpre]

theorem afterFirst_eq_none (d : Char) (s : List Char) (h : d ∉ s) : afterFirst d s = none := by
  induction s with
  | nil => rfl
  | cons c s ih =>
    have hc : c ≠ d := fun hcd => h (by simp [hcd])
    have hs : d ∉ s := fun hm => h (List.mem_cons_of_mem _ hm)
    simp [afterFirst, hc, ih hs]

theorem splitOn_getlines (d : Char) (s : List Char) :
    (s.splitOn d = getlines d s ∧ getlines d s ≠ []) ∨ s.splitOn d = getlines d s ++ [[]] := by
  induction s with
  | nil => exact Or.inr (by simp [getlines, List.splitOn_nil])
  | cons c s ih =>
    have hcons : (c :: s).splitOn d =
        if c = d then [] :: s.splitOn d else (s.splitOn d).modifyHead (List.cons c) := by
      simp only [List.splitOn, List.splitOnP_cons, beq_iff_eq]
    rw [hcons]
    by_cases hc : c = d
    · subst hc
      simp only [if_true, getlines]
      rcases ih with ⟨h1, _⟩ | h2
      · exact Or.inl ⟨by rw [h1], by simp⟩
      · exact Or.inr (by rw [h2]; simp)
    · simp only [hc, if_false, getlines]
      rcases ih with ⟨h1, hne⟩ | h2
      · rw [h1]
        cases hg : getlines d s with
        | nil => exact absurd hg hne
        | cons item items => exact Or.inl ⟨by simp, by simp⟩
      · rw [h2]
        cases hg : getlines d s with
        | nil => exact Or.inl ⟨by simp, by simp⟩
        | cons item items => exact Or.inr (by simp)

theorem lastBinding_snoc (items : List (List Char)) (x : List Char) (k : String) :
    lastBinding (items ++ [x]) k =
      match afterFirst '=' x with
      | some v =>
        if url_decode ⟨beforeFirst '=' x⟩ = k then some (url_decode ⟨v⟩) else lastBinding items k
      | none => lastBinding items k := by
  unfold lastBinding
  simp only [List.reverse_append, List.reverse_cons, List.reverse_nil, List.nil_append,
    List.singleton_append, List.find?_cons]
  cases hv : afterFirst '=' x with
  | none => simp
  | some v =>
    by_cases hk : url_decode ⟨beforeFirst '=' x⟩ = k
    · simp [hk, hv]
    · simp [hk]

theorem mfind_foldl_addItem (items : List (List Char)) (k : String) :
    ∀ m : Params, mfind (items.foldl addItem m) k =
      match lastBinding items k with
      | some v => some v
      | none => mfind m k := by
  induction items using List.reverseRecOn with
  | nil => intro m; simp [lastBinding]
  | append_singleton items x ih =>
    intro m
    rw [List.foldl_append, lastBinding_snoc]
    simp only [List.foldl_cons, List.foldl_nil, addItem]
    cases hv : afterFirst '=' x with
    | none => exact ih m
    | some v =>
      simp only [mfind_mset]
      by_cases hk : url_decode ⟨beforeFirst '=' x⟩ = k
      · simp [hk]
      · simp only [hk, if_false]
        exact ih m

theorem nodup_foldl_addItem (items : List (List Char)) :
    ∀ m : Params, (mkeys m).Nodup → (mkeys (items.foldl addItem m)).Nodup := by
  induction items with
  | nil => intro m h; exact h
  | cons x items ih =>
    intro m h
    simp only [List.foldl_cons]
    apply ih
    unfold addItem
    cases afterFirst '=' x with
    | none => exact h
    | some v => exact nodup_mkeys_mset _ _ _ h

/-- C15: for a path with a `?`, `parse_query_string` returns a mapping (no key twice) that
binds every key `k` to the url-decoded value of the last of the `&`-separated items of
the text after the first `?` that has an `=` and whose url-decoded name, the text before
its first `=`, is `k`, and binds no other key; items without `=` contribute nothing.  A
path without `?` gives the empty mapping.  In particular the last occurrence of a
duplicate key wins. -/
theorem parse_query_string_last_wins :
    (∀ (pre q : List Char) (k : String), '?' ∉ pre →
      mfind (parse_query_string ⟨pre ++ '?' :: q⟩) k = lastBinding (q.splitOn '&') k ∧
      (mkeys (parse_query_string ⟨pre ++ '?' :: q⟩)).Nodup) ∧
    (∀ path : String, '?' ∉ path.data → parse_query_string path = []) ∧
    parse_query_string "/create?key=a&junk&key=b%21&value=x+y" =
      [("key", "b!"), ("value", "x y")] := by
  refine ⟨?_, ?_, by decide⟩
  · intro pre q k hpre
    have hq : afterFirst '?' (pre ++ '?' :: q) = some q := afterFirst_append '?' pre q hpre
    constructor
    · simp only [parse_query_string, hq]
      rw [mfind_foldl_addItem]
      simp only [mfind]
      have hsame : lastBinding (getlines '&' q) k = lastBinding (q.splitOn '&') k := by
        rcases splitOn_getlines '&' q with ⟨h1, _⟩ | h2
        · rw [h1]
        · rw [h2, lastBinding_snoc]
          simp [afterFirst]
      rw [← hsame]
      cases lastBinding (getlines '&' q) k <;> rfl
    · simp only [parse_query_string, hq]
      exact nodup_foldl_addItem _ [] (by simp [mkeys])
  · intro path hpath
    simp [parse_query_string, afterFirst_eq_none '?' path.data hpath]

theorem parse_query_string_last_wins_witness :
    mfind (parse_query_string ⟨"/read".data ++ '?' :: "key=a&key=b".data⟩) "key" =
        lastBinding ("key=a&key=b".data.splitOn '&') "key" ∧
      (mkeys (parse_query_string ⟨"/read".data ++ '?' :: "key=a&key=b".data⟩)).Nodup :=
  parse_query_string_last_wins.1 "/read".data "key=a&key=b".data "key" (by decide)

/-! ## Percent-decoding -/

theorem url_decode_chars_escape (a b : Char) (rest : List Char) :
    url_decode_chars ('%' :: a :: b :: rest) =
      toChar (strtol16 [a, b]) :: url_decode_chars rest := by
  simp [url_decode_chars]

theorem url_decode_chars_plus (rest : List Char) :
    url_decode_chars ('+' :: rest) = ' ' :: url_decode_chars rest := by
  rcases rest with _ | ⟨a, _ | ⟨b, rest⟩⟩ <;> simp [url_decode_chars]

theorem url_decode_chars_plain (c : Char) (rest : List Char) (h1 : c ≠ '%') (h2 : c ≠ '+') :
    url_decode_chars (c :: rest) = c :: url_decode_chars rest := by
  rcases rest with _ | ⟨a, _ | ⟨b, rest⟩⟩ <;> simp [url_decode_chars, h1, h2]

theorem hexDigit_facts : ∀ (u : Bool) (d : Fin 16),
    hexval (hexDigit u d.val) = some d.val ∧ (hexDigit u d.val).toNat ≠ 0 ∧
      isspace (hexDigit u d.val) = false ∧ hexDigit u d.val ≠ '-' ∧ hexDigit u d.val ≠ '+' := by
  decide

theorem strtol16_hexDigits (u1 u2 : Bool) (a b : Nat) (ha : a < 16) (hb : b < 16) :
    strtol16 [hexDigit u1 a, hexDigit u2 b] = ((16 * a + b : Nat) : Int) := by
  obtain ⟨ha1, ha2, ha3, ha4, ha5⟩ := hexDigit_facts u1 ⟨a, ha⟩
  obtain ⟨hb1, hb2, hb3, hb4, hb5⟩ := hexDigit_facts u2 ⟨b, hb⟩
  simp only at ha1 ha2 ha3 ha4 ha5 hb1 hb2 hb3 hb4 hb5
  simp [strtol16, List.takeWhile, List.dropWhile, hexrun, ha1, ha2, ha3, ha4, ha5, hb1, hb2, hb3]

theorem toChar_byte (c : Char) (h : c.toNat < 256) :
    toChar ((16 * (c.toNat / 16) + c.toNat % 16 : Nat) : Int) = c := by
  have h1 : 16 * (c.toNat / 16) + c.toNat % 16 = c.toNat := Nat.div_add_mod _ _
  rw [h1]
  unfold toChar
  have h2 : ((c.toNat : Int) % 256).toNat = c.toNat := by omega
  rw [h2]
  exact Char.ofNat_toNat c

/-- C16: `url_decode` undoes percent-encoding, maps `+` to a space and copies the other
characters: for every text made of escapes of bytes (`%` and the two hexadecimal digits
of the byte, each in upper or lower case), of `+` and of characters other than `%` and
`+`, in any order and number, `url_decode` returns the bytes escaped, a space for each
`+`, and the other characters as they are.  The text may end with an escape. -/
theorem url_decode_encoded (ts : List Token) (h : ∀ t, t ∈ ts → t.wellFormed = true) :
    url_decode ⟨encodedText ts⟩ = ⟨ts.map Token.decoded⟩ := by
  have key : url_decode_chars (encodedText ts) = ts.map Token.decoded := by
    induction ts with
    | nil => rfl
    | cons t ts ih =>
      have ih' := ih (fun t' ht' => h t' (List.mem_cons_of_mem _ ht'))
      have ht := h t (List.mem_cons_self _ _)
      cases t with
      | escape byte u1 u2 =>
        have hbyte : byte.toNat < 256 := by simpa [Token.wellFormed] using ht
        have hdiv : byte.toNat / 16 < 16 := by omega
        have hmod : byte.toNat % 16 < 16 := Nat.mod_lt _ (by decide)
        simp only [encodedText, Token.text, List.cons_append, List.nil_append, List.map_cons,
          Token.decoded]
        rw [url_decode_chars_escape, strtol16_hexDigits u1 u2 _ _ hdiv hmod, toChar_byte byte hbyte,
          ih']
      | plus =>
        simp only [encodedText, Token.text, List.cons_append, List.nil_append, List.map_cons,
          Token.decoded]
        rw [url_decode_chars_plus, ih']
      | plain c =>
        have hc : c ≠ '%' ∧ c ≠ '+' := by simpa [Token.wellFormed] using ht
        simp only [encodedText, Token.text, List.cons_append, List.nil_append, List.map_cons,
          Token.decoded]
        rw [url_decode_chars_plain c _ hc.1 hc.2, ih']
  simp [url_decode, key]

theorem url_decode_encoded_witness :
    url_decode ⟨encodedText [Token.plain 'a', Token.plus, Token.escape 'J' true false,
        Token.escape (Char.ofNat 255) false true]⟩ =
      ⟨[Token.plain 'a', Token.plus, Token.escape 'J' true false,
        Token.escape (Char.ofNat 255) false true].map Token.decoded⟩ :=
  url_decode_encoded _ (by decide)

end KV
